import Mathlib

/-!
Shallow embedding of the repeat-index builder (repeat_builder.cpp) of this
repository: the fragment map (`NRG::buildJoinedFragment`, `NRG::mapJoinedOffToSeq`),
the LCP oracle (`NRG::getLCP`), the repeat scanner (`NRG::build`), the range
merger (`NRG::mergeRepeatGroup`), the approximate grouper
(`NRG::groupRepeatGroup`) and the edit-distance routine
(`levenshtein_distance`, `checkSequenceMergeable`).

Strings of the C++ code are embedded as `List Char`, the joined 2-bit encoded
sequence as a function `Nat → Nat` together with its length, unsigned machine
integers as `Nat` (none of the embedded routines can overflow their 32/64-bit
counters for any genome a suffix array can index), and the C++ `int` results
carrying the `-1` failure sentinel as `Int`.
-/

/-- Modelled from the spec: one input fragment descriptor (spec section 6:
"an ordered list of fragment descriptors {length, gap-before,
is-first-of-original-sequence}").  The concrete `RefRecord` struct lives in a
header that is not part of this repository snapshot; only the three fields
used by `NRG::buildJoinedFragment` are modelled. -/
structure RefRecord where
  off : Nat := 0
  len : Nat := 0
  first : Bool := false
  deriving DecidableEq, Repr, Inhabited

/-- Modelled from the spec: the Fragment record of the fragment map (spec
section 3).  The C++ `Fragments` struct is declared in the missing header
`repeat_builder.h`; its fields are read off the assignments in
`NRG::buildJoinedFragment`.  Fields that `buildJoinedFragment` leaves unset
keep their default values. -/
structure Fragments where
  start : Nat := 0
  length : Nat := 0
  start_in_seq : Nat := 0
  frag_id : Nat := 0
  seq_id : Int := 0
  first : Bool := false
  deriving DecidableEq, Repr, Inhabited

/-- Modelled from the spec: `Fragments::contain` (declared in the missing
header), the containment probe of the fragment map; spec section 4.1: "a hit
checks `start <= pos < start+length`". -/
def Fragments.contain (f : Fragments) (pos : Nat) : Bool :=
  decide (f.start ≤ pos ∧ pos < f.start + f.length)

/-- Accumulating loop of `NRG::buildJoinedFragment`: skips zero-length
records, emits one fragment per nonzero-length record while advancing the
joined-offset accumulator `accF` and the original-sequence accumulator
`accR`, and finally emits the zero-length terminator fragment whose
`start_in_seq` adds the `off` of the very last input record (`szs_.back()`),
mirroring the C++ line `fraglist_[npos].start_in_seq = acc_ref_length +
szs_.back().off`.  The C++ writes `frag_id = i` and then immediately
`frag_id = npos`; the net effect `frag_id = npos` is kept. -/
def buildFragsAux (lastOff : Nat) : List RefRecord → Nat → Nat → Int → Nat → List Fragments
  | [], accF, accR, _, _ =>
      [{ start := accF, length := 0, start_in_seq := accR + lastOff }]
  | r :: rest, accF, accR, sid, npos =>
      if r.len = 0 then
        buildFragsAux lastOff rest accF accR sid npos
      else
        let sid' : Int := if r.first then sid + 1 else sid
        { start := accF, length := r.len, start_in_seq := accR + r.off,
          frag_id := npos, seq_id := sid', first := r.first } ::
          buildFragsAux lastOff rest (accF + r.len) (accR + r.off + r.len) sid' (npos + 1)

/-- Embedding of `NRG::buildJoinedFragment` (repeat_builder.cpp): builds the
fragment list, one entry per nonzero-length record plus the zero-length
terminator. -/
def buildJoinedFragment (szs : List RefRecord) : List Fragments :=
  buildFragsAux (szs.getLastD default).off szs 0 0 (-1) 0

/-- Embedding of the binary-search loop of `NRG::mapJoinedOffToSeq`
(repeat_builder.cpp lines 364-378): while `bot - top > 1`, probe the middle
fragment and narrow to the half whose `start` brackets `joined_pos`.  The
loop shrinks `bot - top` on every iteration, so it is embedded structurally
on a fuel that starts at `bot - top`; when the fuel hits zero the loop guard
is already false. -/
def bsearchFragF (fl : List Fragments) (pos : Nat) : Nat → Nat → Nat → Nat
  | 0, top, _ => top
  | fuel + 1, top, bot =>
      if top + 1 < bot then
        let mid := top + (bot - top) / 2
        if pos < (fl.getD mid default).start then
          bsearchFragF fl pos fuel top mid
        else
          bsearchFragF fl pos fuel mid bot
      else
        top

/-- Binary-search entry point with the exactly sufficient fuel. -/
def bsearchFrag (fl : List Fragments) (pos : Nat) (top bot : Nat) : Nat :=
  bsearchFragF fl pos (bot - top) top bot

/-- Embedding of the search path of `NRG::mapJoinedOffToSeq` (the code run
when the lookaside cache misses): binary-search the fragment list by `start`,
verify containment, and return the found index, or `-1` when the position is
covered by no fragment. -/
def mapJoinedOffToSeq (fl : List Fragments) (pos : Nat) : Int :=
  let top := bsearchFrag fl pos 0 (fl.length - 1)
  if (fl.getD top default).contain pos then (top : Int) else -1

/-- State of the fixed-size lookaside cache of `NRG::mapJoinedOffToSeq`:
the filled slots of `cached_` (in slot order) and the round-robin victim
cursor.  The capacity `CACHE_SIZE_JOINEDFRG` lives in the missing header and
is kept as a parameter of the cached operations. -/
structure FragCache where
  cached : List Fragments := []
  victim : Nat := 0
  deriving DecidableEq, Repr, Inhabited

/-- Linear probe of the cache slots (repeat_builder.cpp lines 353-361): the
first cached fragment containing the position answers with its stored
`frag_id`. -/
def findCached : List Fragments → Nat → Option Nat
  | [], _ => none
  | f :: fs, pos => if f.contain pos then some f.frag_id else findCached fs pos

/-- Cache update on a verified hit (repeat_builder.cpp lines 383-390): append
while below capacity, otherwise overwrite the round-robin victim slot and
advance the cursor modulo the capacity. -/
def cacheInsert (cap : Nat) (st : FragCache) (f : Fragments) : FragCache :=
  if st.cached.length < cap then
    { st with cached := st.cached ++ [f] }
  else
    { cached := st.cached.set st.victim f, victim := (st.victim + 1) % cap }

/-- Full embedding of `NRG::mapJoinedOffToSeq` including the lookaside cache:
probe the cache first, fall through to the binary search on a miss, and
insert the found fragment into the cache on a verified hit.  Returns the
answer together with the updated cache state. -/
def mapJoinedOffToSeqCached (cap : Nat) (fl : List Fragments) (st : FragCache)
    (pos : Nat) : Int × FragCache :=
  match findCached st.cached pos with
  | some fid => ((fid : Int), st)
  | none =>
      let top := bsearchFrag fl pos 0 (fl.length - 1)
      if (fl.getD top default).contain pos then
        ((top : Int), cacheInsert cap st (fl.getD top default))
      else
        (-1, st)

/-- Run of a whole query sequence through the cached lookup, threading the
cache state, collecting the answers. -/
def runCachedQueries (cap : Nat) (fl : List Fragments) (st : FragCache) :
    List Nat → List Int
  | [] => []
  | q :: qs =>
      let r := mapJoinedOffToSeqCached cap fl st q
      r.1 :: runCachedQueries cap fl r.2 qs

/-- Embedding of the byte-compare loop of `NRG::getLCP` (repeat_builder.cpp
lines 1179-1184): count matching bytes at `a + k` and `b + k` while both
stay strictly below their respective fragment bounds. -/
def lcpScanF (s : Nat → Nat) (aEnd bEnd : Nat) : Nat → Nat → Nat → Nat
  | 0, _, _ => 0
  | fuel + 1, a, b =>
      if a < aEnd ∧ b < bEnd ∧ s a = s b then
        lcpScanF s aEnd bEnd fuel (a + 1) (b + 1) + 1
      else
        0

/-- Byte-compare loop with the exactly sufficient fuel `aEnd - a` (the loop
advances `a` towards `aEnd` every iteration; with zero fuel the guard
`a < aEnd` is already false). -/
def lcpScan (s : Nat → Nat) (aEnd bEnd : Nat) (a b : Nat) : Nat :=
  lcpScanF s aEnd bEnd (aEnd - a) a b

/-- Embedding of `NRG::getLCP` (repeat_builder.cpp lines 1130-1187): return 0
when either offset is at or past the end of the joined sequence or when
either fragment lookup fails; otherwise clip the byte comparison at each
side's fragment end, where in forward mode the bound is
`fragment.start + fragment.length` of the containing fragment, and in
reverse-complement mode the offsets are mirrored (`s_len - pos - 1`) before
the lookup and the bound is `s_len - fragment.start`.  The lookaside cache
does not change lookup answers (proved below for the cached variant), so the
cache-free `mapJoinedOffToSeq` is used here. -/
def getLCP (fl : List Fragments) (s : Nat → Nat) (sLen : Nat) (forward : Bool)
    (a b : Nat) : Nat :=
  if a ≥ sLen ∨ b ≥ sLen then 0
  else if forward then
    let af := mapJoinedOffToSeq fl a
    let bf := mapJoinedOffToSeq fl b
    if af < 0 ∨ bf < 0 then 0
    else
      let aEnd := (fl.getD af.toNat default).start + (fl.getD af.toNat default).length
      let bEnd := (fl.getD bf.toNat default).start + (fl.getD bf.toNat default).length
      lcpScan s aEnd bEnd a b
  else
    let af := mapJoinedOffToSeq fl (sLen - a - 1)
    let bf := mapJoinedOffToSeq fl (sLen - b - 1)
    if af < 0 ∨ bf < 0 then 0
    else
      let aEnd := sLen - (fl.getD af.toNat default).start
      let bEnd := sLen - (fl.getD bf.toNat default).start
      lcpScan s aEnd bEnd a b

/-- Decoding used by `getString`: the C++ indexes the literal `"ACGT"` with a
2-bit base code; any other code reads the terminating NUL byte of the
literal. -/
def baseChar (c : Nat) : Char :=
  if c = 0 then 'A' else if c = 1 then 'C' else if c = 2 then 'G'
  else if c = 3 then 'T' else Char.ofNat 0

/-- Loop of `getString` (repeat_builder.cpp lines 129-141): push decoded
bytes while the index is below the requested length and the read position is
inside the reference. -/
def getStringGo (s : Nat → Nat) (refLen st len : Nat) : Nat → Nat → List Char
  | 0, _ => []
  | fuel + 1, i =>
      if i < len ∧ st + i < refLen then
        baseChar (s (st + i)) :: getStringGo s refLen st len fuel (i + 1)
      else
        []

/-- Embedding of `getString` (repeat_builder.cpp): the decoded substring of
the joined sequence starting at `st`, of length `len`, truncated at the end
of the sequence.  The push loop runs at most `len` times, the fuel. -/
def getString (s : Nat → Nat) (refLen st len : Nat) : List Char :=
  getStringGo s refLen st len len 0

/-- Embedding of `RepeatCoord<TIndexOffU>` as used by repeat_builder.cpp: the
joined offset of one repeat occurrence and its strand flag.  The struct is
declared in the missing header; spec section 3 lists exactly these two
fields. -/
structure RepeatCoord where
  joinedOff : Nat := 0
  fw : Bool := true
  deriving DecidableEq, Repr, Inhabited

/-- Modelled from the spec: `RepeatGroup` (spec section 3) with the
representative sequence, the occurrence list, the accumulated alternate
representatives and the tombstone ("empty") flag.  The struct with its
`empty`, `set_empty` and `merge` members is declared in the missing header
`repeat_builder.h`; spec section 4.5 specifies an absorption as "append j's
representative to i's `alt_seq`, tombstone j", leaving `seq` and `positions`
of the absorber unchanged. -/
structure RepeatGroup where
  seq : List Char := []
  positions : List RepeatCoord := []
  alt_seq : List (List Char) := []
  emptyFlag : Bool := false
  deriving DecidableEq, Repr, Inhabited

/-- Modelled from the spec: `RepeatGroup::merge` under spec section 4.5,
appending the representative of the absorbed group to `alt_seq` of the
absorber. -/
def RepeatGroup.mergeG (a b : RepeatGroup) : RepeatGroup :=
  { a with alt_seq := a.alt_seq ++ [b.seq] }

/-- Comparator `compareRepeatCoordByJoinedOff` (repeat_builder.cpp lines
122-126) turned into the matching non-strict order used to model the
`std::sort` call on positions. -/
def coordLE (a b : RepeatCoord) : Prop :=
  a.joinedOff ≤ b.joinedOff

instance : DecidableRel coordLE := fun a b => Nat.decLe a.joinedOff b.joinedOff

/-- Model of the `std::sort` calls on position lists: a sort of the list
under the comparator order (std::sort is unstable, so any sort realizes
it). -/
def sortCoords (l : List RepeatCoord) : List RepeatCoord :=
  l.insertionSort coordLE

/-- State of the scanner loop of `NRG::build` (repeat_builder.cpp lines
195-244): the open cluster `rpt_positions`, the running minimum LCP, and the
emitted groups `rpt_grp_`. -/
structure ScanState where
  rpt_positions : List RepeatCoord := []
  min_lcp_len : Nat := 0
  rpt_grp : List RepeatGroup := []
  deriving DecidableEq, Repr, Inhabited

/-- One iteration of the scanner loop of `NRG::build` for suffix `saElt`:
open a cluster if none is open; otherwise compare the LCP of the previous
and the new suffix against `rpt_len`, either extending the cluster (keeping
the minimum LCP) or flushing it — emitting a group exactly when the cluster
has at least `rpt_cnt` members, with positions sorted by joined offset and
representative `getString s_ prev_saElt min_lcp_len` — and restarting from
the new suffix. -/
def scanStep (fl : List Fragments) (s : Nat → Nat) (sLen : Nat) (forward : Bool)
    (rptLen rptCnt : Nat) (st : ScanState) (saElt : Nat) : ScanState :=
  if st.rpt_positions.isEmpty then
    { st with rpt_positions := [{ joinedOff := saElt, fw := forward }] }
  else
    let prev := (st.rpt_positions.getLastD default).joinedOff
    let k := getLCP fl s sLen forward prev saElt
    if rptLen ≤ k then
      { st with
        rpt_positions := st.rpt_positions ++ [{ joinedOff := saElt, fw := forward }],
        min_lcp_len := if k < st.min_lcp_len then k else st.min_lcp_len }
    else
      let grps :=
        if rptCnt ≤ st.rpt_positions.length then
          st.rpt_grp ++
            [{ seq := getString s sLen prev st.min_lcp_len,
               positions := sortCoords st.rpt_positions }]
        else st.rpt_grp
      { rpt_positions := [{ joinedOff := saElt, fw := forward }],
        min_lcp_len := sLen, rpt_grp := grps }

/-- Embedding of the scanning phase of `NRG::build`: consume the
suffix-array stream, starting from an empty cluster and
`min_lcp_len = s_.length()`, and return the list of emitted repeat groups.
No flush happens after the stream ends (repeat_builder.cpp runs
`mergeRepeatGroup` immediately after the loop). -/
def nrgScan (fl : List Fragments) (s : Nat → Nat) (sLen : Nat) (forward : Bool)
    (rptLen rptCnt : Nat) (sa : List Nat) : List RepeatGroup :=
  (sa.foldl (scanStep fl s sLen forward rptLen rptCnt)
    { rpt_positions := [], min_lcp_len := sLen, rpt_grp := [] }).rpt_grp

/-- Embedding of `RepeatRange` (repeat_builder.cpp lines 54-66): the
half-open joined interval as a pair, the owning group id (a C++ `int`, so an
`Int` here, holding `std::numeric_limits<int>::max()` once removed) and the
strand. -/
structure RepeatRange where
  range : Nat × Nat := (0, 0)
  rg_id : Int := 0
  forward : Bool := true
  deriving DecidableEq, Repr, Inhabited

/-- Sentinel `EMPTY_RANGE = Range(1, 0)` (repeat_builder.cpp line 52). -/
def EMPTY_RANGE : Nat × Nat := (1, 0)

/-- Sentinel group id `std::numeric_limits<int>::max()` written into removed
ranges by the subsumption sweep. -/
def INT_SENTINEL : Int := 2147483647

/-- Embedding of `checkRangeMergeable` (repeat_builder.cpp lines 96-103):
true iff interval `b` is fully contained in interval `a`. -/
def checkRangeMergeable (a b : Nat × Nat) : Bool :=
  decide (a.1 ≤ b.1 ∧ a.2 ≥ b.2)

/-- Non-strict order matching the strict comparator
`compareRepeatRangeByRange` (repeat_builder.cpp lines 106-114): end
descending, then start ascending; `rangeLE a b` holds exactly when the
comparator does not order `b` before `a`, which is the order the sorted
array satisfies. -/
def rangeLE (a b : RepeatRange) : Prop :=
  b.range.2 < a.range.2 ∨ (a.range.2 = b.range.2 ∧ a.range.1 ≤ b.range.1)

instance : DecidableRel rangeLE := fun a b => by unfold rangeLE; infer_instance

instance : IsTotal RepeatRange rangeLE :=
  ⟨fun a b => by unfold rangeLE; omega⟩

instance : IsTrans RepeatRange rangeLE :=
  ⟨fun a b c h1 h2 => by unfold rangeLE at h1 h2 ⊢; omega⟩

/-- Non-strict order matching `compareRepeatRangeByRgID`
(repeat_builder.cpp lines 116-119). -/
def rangeIdLE (a b : RepeatRange) : Prop :=
  a.rg_id ≤ b.rg_id

instance : DecidableRel rangeIdLE := fun a b => Int.decLe a.rg_id b.rg_id

instance : IsTotal RepeatRange rangeIdLE :=
  ⟨fun a b => by unfold rangeIdLE; omega⟩

instance : IsTrans RepeatRange rangeIdLE :=
  ⟨fun a b c h1 h2 => by unfold rangeIdLE at h1 h2 ⊢; omega⟩

/-- Marking of an absorbed range (repeat_builder.cpp lines 682-683): the
interval becomes `EMPTY_RANGE` and the group id the `int` maximum. -/
def emptied (r : RepeatRange) : RepeatRange :=
  { r with range := EMPTY_RANGE, rg_id := INT_SENTINEL }

/-- Inner structure of the subsumption sweep of `NRG::mergeRepeatGroup`
(repeat_builder.cpp lines 671-687) relative to the current pivot `a`
(`rpt_ranges[i]`): each following range fully contained in the pivot is
marked removed; the first non-contained range becomes the new pivot (the
outer loop sets `i = j`). -/
def sweepAux (a : RepeatRange) : List RepeatRange → List RepeatRange
  | [] => []
  | b :: bs =>
      if checkRangeMergeable a.range b.range then
        emptied b :: sweepAux a bs
      else
        b :: sweepAux b bs

/-- Subsumption sweep of `NRG::mergeRepeatGroup` over the array sorted by
`compareRepeatRangeByRange`. -/
def mergeSweep : List RepeatRange → List RepeatRange
  | [] => []
  | a :: rest => a :: sweepAux a rest

/-- Flatten step of `NRG::mergeRepeatGroup` (repeat_builder.cpp lines
654-663): one `RepeatRange` per occurrence of each group, spanning the
representative length, tagged with the group index and strand. -/
def flattenRanges (grps : List RepeatGroup) : List RepeatRange :=
  (grps.enum.map fun gi =>
    gi.2.positions.map fun p =>
      { range := (p.joinedOff, p.joinedOff + gi.2.seq.length),
        rg_id := (gi.1 : Int), forward := p.fw }).flatten

/-- Regroup loop of `NRG::mergeRepeatGroup` (repeat_builder.cpp lines
730-762): runs while `i < rpt_ranges.size() - 1`, so a final run consisting
of the single last range is never processed; it stops at the first removed
range (sorted to the back), and otherwise turns the contiguous run of ranges
sharing the front range id into one rebuilt group carrying the seq of the
original group of that id and the run's interval starts with their strands,
sorted by joined offset. -/
def regroupLoopF (grps : List RepeatGroup) : Nat → List RepeatRange → List RepeatGroup
  | 0, _ => []
  | _ + 1, [] => []
  | _ + 1, [_] => []
  | fuel + 1, r :: b :: rest =>
      if r.rg_id = INT_SENTINEL then []
      else
        let run := (b :: rest).takeWhile fun x => x.rg_id == r.rg_id
        let rest' := (b :: rest).dropWhile fun x => x.rg_id == r.rg_id
        { seq := (grps.getD r.rg_id.toNat default).seq,
          positions := sortCoords ((r :: run).map fun k =>
            { joinedOff := k.range.1, fw := k.forward }) } ::
          regroupLoopF grps fuel rest'

/-- Regroup loop with the exactly sufficient fuel (the outer index jumps to
the end of each processed run, shrinking the remaining list every step, so a
list-length fuel never runs out before the loop guard stops the loop). -/
def regroupLoop (grps : List RepeatGroup) (l : List RepeatRange) : List RepeatGroup :=
  regroupLoopF grps l.length l

/-- Embedding of `NRG::mergeRepeatGroup` (repeat_builder.cpp lines 636-764):
return unchanged when there are no occurrences at all (the early `return`),
otherwise flatten, sort by range, sweep, sort by group id, and regroup. -/
def mergeRepeatGroup (grps : List RepeatGroup) : List RepeatGroup :=
  if (flattenRanges grps).length = 0 then grps
  else
    regroupLoop grps
      ((mergeSweep ((flattenRanges grps).insertionSort rangeLE)).insertionSort rangeIdLE)

/-- Embedding of `levenshtein_distance` (repeat_builder.cpp lines 27-43),
inner loop: given the previous row of the dynamic program, the current row
value `cur` (`col[j]`) and the remaining characters of `s2`, produce the
remaining entries `col[j+1] = min(min(prevCol[j+1] + 1, col[j] + 1),
prevCol[j] + (s1[i]==s2[j] ? 0 : 1))`. -/
def levRow (x : Char) : Nat → List Char → List Nat → List Nat
  | cur, y :: ys, p0 :: p1 :: ps =>
      let v := min (min (p1 + 1) (cur + 1)) (p0 + if x = y then 0 else 1)
      v :: levRow x v ys (p1 :: ps)
  | _, _, _ => []

/-- Embedding of `levenshtein_distance`, outer loop: one row per character
of `s1`, with `col[0] = i + 1`, then the rows swap. -/
def levLoop (s2 : List Char) : List Char → Nat → List Nat → List Nat
  | [], _, prev => prev
  | x :: xs, i, prev => levLoop s2 xs (i + 1) ((i + 1) :: levRow x (i + 1) s2 prev)

/-- Embedding of `levenshtein_distance` (repeat_builder.cpp lines 27-43):
rolling two-row dynamic program, starting from `prevCol = [0, 1, ..., len2]`
and returning `prevCol[len2]`. -/
def levenshtein_distance (s1 s2 : List Char) : Nat :=
  (levLoop s2 s1 0 (List.range (s2.length + 1))).getD s2.length 0

/-- Embedding of `checkSequenceMergeable` (repeat_builder.cpp lines 45-49):
true iff the edit distance is at most the budget (C++ default 10). -/
def checkSequenceMergeable (s1 s2 : List Char) (maxEdit : Nat) : Bool :=
  decide (levenshtein_distance s1 s2 ≤ maxEdit)

/-- Effect on the later groups of one pass of the inner loop of
`NRG::groupRepeatGroup` (repeat_builder.cpp lines 795-804) for a fixed
absorber representative `s1`: every later group whose representative is
mergeable with `s1` is tombstoned — the loop does not test the tombstone
flag of `j` before comparing. -/
def innerSweepMark (e : Nat) (s1 : List Char) (gs : List RepeatGroup) :
    List RepeatGroup :=
  gs.map fun g =>
    if checkSequenceMergeable s1 g.seq e then { g with emptyFlag := true } else g

/-- Representatives absorbed by the same pass, in loop order: these are
appended one `merge` call at a time to the absorber's `alt_seq`. -/
def innerSweepAbsorbed (e : Nat) (s1 : List Char) (gs : List RepeatGroup) :
    List (List Char) :=
  (gs.filter fun g => checkSequenceMergeable s1 g.seq e).map fun g => g.seq

/-- Outer loop of the pairwise sweep of `NRG::groupRepeatGroup`
(repeat_builder.cpp lines 783-805): it runs for `i < rpt_grp_.size() - 1`
(the last group has no later partners anyway), skips tombstoned absorbers,
and otherwise lets group `i` absorb every later mergeable group. -/
def outerSweepF (e : Nat) : Nat → List RepeatGroup → List RepeatGroup
  | 0, gs => gs
  | _ + 1, [] => []
  | _ + 1, [g] => [g]
  | fuel + 1, g :: gs =>
      if g.emptyFlag then g :: outerSweepF e fuel gs
      else
        { g with alt_seq := g.alt_seq ++ innerSweepAbsorbed e g.seq gs } ::
          outerSweepF e fuel (innerSweepMark e g.seq gs)

/-- Pairwise sweep with the exactly sufficient fuel: the outer index
advances by one per iteration and the inner marking keeps the list length,
so a list-length fuel covers the whole loop. -/
def outerSweep (e : Nat) (gs : List RepeatGroup) : List RepeatGroup :=
  outerSweepF e gs.length gs

/-- Embedding of `NRG::groupRepeatGroup` (repeat_builder.cpp lines 767-841):
early return on an empty group list, otherwise the pairwise sweep followed
by compaction dropping the tombstoned groups. -/
def groupRepeatGroup (e : Nat) (gs : List RepeatGroup) : List RepeatGroup :=
  if gs.isEmpty then gs
  else (outerSweep e gs).filter fun g => !g.emptyFlag


/-- Invariant tying cache entries to the fragment list: every cached
fragment is a copy of some list entry whose stored `frag_id` equals its
index (which `buildJoinedFragment` guarantees for every entry it inserts). -/
def CacheConsistent (fl : List Fragments) (st : FragCache) : Prop :=
  ∀ f ∈ st.cached, ∃ k, k + 1 < fl.length ∧ fl.getD k default = f ∧ f.frag_id = k

/-- Ranges that survive the subsumption sweep: those not marked with the
`EMPTY_RANGE` sentinel (the test the code itself uses to skip removed
ranges). -/
def survivingRanges (l : List RepeatRange) : List RepeatRange :=
  l.filter fun r => r.range ≠ EMPTY_RANGE

/-- Strict subset order on half-open joined intervals. -/
def rangeStrictSub (a b : Nat × Nat) : Prop :=
  b.1 ≤ a.1 ∧ a.2 ≤ b.2 ∧ (b.1 < a.1 ∨ a.2 < b.2)

/-- Mutual non-containment of two ranges, the relation the subsumption
sweep is claimed to establish pairwise on survivors. -/
def noStrictSub (a b : RepeatRange) : Prop :=
  ¬rangeStrictSub a.range b.range ∧ ¬rangeStrictSub b.range a.range

/-- Specification rows for the edit-distance program: the list of distances
(in the sense of Mathlib `levenshtein` with the unit cost structure
`Levenshtein.defaultCost`, the classic insert/delete/substitute edit
distance) from the processed prefix `A` of `s1` to the prefixes `Q`,
`Q ++ [y1]`, ..., `Q ++ ys` of `s2`: the intended contents of the rolling
row after the outer loop has consumed `A` and the inner loop has swept
`Q`. -/
def levRowSpec (A : List Char) : List Char → List Char → List Nat
  | Q, [] => [levenshtein Levenshtein.defaultCost A Q]
  | Q, y :: ys => levenshtein Levenshtein.defaultCost A Q :: levRowSpec A (Q ++ [y]) ys

/-! ### Well-formedness of the built fragment list -/

theorem buildFragsAux_ne_nil (szs : List RefRecord) :
    ∀ lastOff accF accR sid npos, buildFragsAux lastOff szs accF accR sid npos ≠ [] := by
  induction szs with
  | nil => intro lastOff accF accR sid npos; simp [buildFragsAux]
  | cons r rest ih =>
      intro lastOff accF accR sid npos
      by_cases h : r.len = 0 <;> simp [buildFragsAux, h, ih]

theorem buildFragsAux_getD_zero_start (szs : List RefRecord) :
    ∀ lastOff accF accR sid npos,
      ((buildFragsAux lastOff szs accF accR sid npos).getD 0 default).start = accF := by
  induction szs with
  | nil => intro lastOff accF accR sid npos; simp [buildFragsAux]
  | cons r rest ih =>
      intro lastOff accF accR sid npos
      by_cases h : r.len = 0
      · simp only [buildFragsAux, if_pos h]
        exact ih lastOff accF accR sid npos
      · simp only [buildFragsAux, if_neg h, List.getD_cons_zero]

theorem buildFragsAux_chained (szs : List RefRecord) :
    ∀ lastOff accF accR sid npos i,
      i + 1 < (buildFragsAux lastOff szs accF accR sid npos).length →
      ((buildFragsAux lastOff szs accF accR sid npos).getD (i + 1) default).start =
        ((buildFragsAux lastOff szs accF accR sid npos).getD i default).start +
          ((buildFragsAux lastOff szs accF accR sid npos).getD i default).length := by
  induction szs with
  | nil => intro lastOff accF accR sid npos i h; simp [buildFragsAux] at h
  | cons r rest ih =>
      intro lastOff accF accR sid npos i h
      by_cases hr : r.len = 0
      · simpa [buildFragsAux, hr] using ih lastOff accF accR sid npos i
          (by simpa [buildFragsAux, hr] using h)
      · simp only [buildFragsAux, if_neg hr] at h ⊢
        match i with
        | 0 =>
            simp only [List.getD_cons_succ, List.getD_cons_zero]
            rw [buildFragsAux_getD_zero_start]
        | Nat.succ j =>
            simp only [List.getD_cons_succ]
            exact ih lastOff (accF + r.len) (accR + r.off + r.len) _ (npos + 1) j
              (by simpa using h)

theorem buildFragsAux_getLast_len (szs : List RefRecord) :
    ∀ lastOff accF accR sid npos (h : buildFragsAux lastOff szs accF accR sid npos ≠ []),
      ((buildFragsAux lastOff szs accF accR sid npos).getLast h).length = 0 := by
  induction szs with
  | nil => intro lastOff accF accR sid npos h; simp [buildFragsAux]
  | cons r rest ih =>
      intro lastOff accF accR sid npos h
      by_cases hr : r.len = 0
      · simp only [buildFragsAux, if_pos hr] at h ⊢
        exact ih lastOff accF accR sid npos h
      · simp only [buildFragsAux, if_neg hr] at h ⊢
        rw [List.getLast_cons (buildFragsAux_ne_nil rest lastOff _ _ _ _)]
        exact ih lastOff _ _ _ _ _

theorem buildFragsAux_frag_id (szs : List RefRecord) :
    ∀ lastOff accF accR sid npos i,
      i + 1 < (buildFragsAux lastOff szs accF accR sid npos).length →
      ((buildFragsAux lastOff szs accF accR sid npos).getD i default).frag_id = npos + i := by
  induction szs with
  | nil => intro lastOff accF accR sid npos i h; simp [buildFragsAux] at h
  | cons r rest ih =>
      intro lastOff accF accR sid npos i h
      by_cases hr : r.len = 0
      · simpa [buildFragsAux, hr] using ih lastOff accF accR sid npos i
          (by simpa [buildFragsAux, hr] using h)
      · simp only [buildFragsAux, if_neg hr] at h ⊢
        match i with
        | 0 => simp
        | Nat.succ j =>
            simp only [List.getD_cons_succ]
            rw [ih lastOff (accF + r.len) (accR + r.off + r.len) _ (npos + 1) j
              (by simpa using h)]
            omega

theorem starts_mono (fl : List Fragments)
    (hc : ∀ i, i + 1 < fl.length →
      ((fl.getD (i + 1) default).start =
        (fl.getD i default).start + (fl.getD i default).length)) :
    ∀ i j, i ≤ j → j < fl.length →
      (fl.getD i default).start ≤ (fl.getD j default).start := by
  intro i j hij hj
  induction j, hij using Nat.le_induction with
  | base => exact Nat.le_refl _
  | succ n hn ih =>
      have h1 : n < fl.length := by omega
      have h2 := hc n (by omega)
      have := ih h1
      omega

theorem bsearchFragF_eq_of_bracket (fl : List Fragments) (pos k : Nat)
    (mono : ∀ i j, i ≤ j → j < fl.length →
      (fl.getD i default).start ≤ (fl.getD j default).start)
    (hk1 : (fl.getD k default).start ≤ pos)
    (hk2 : pos < (fl.getD (k + 1) default).start)
    (hk3 : k + 1 < fl.length) :
    ∀ fuel top bot, bot - top ≤ fuel → top ≤ k → k < bot → bot < fl.length →
      bsearchFragF fl pos fuel top bot = k := by
  intro fuel
  induction fuel with
  | zero => intro top bot h1 h2 h3 h4; omega
  | succ m ih =>
      intro top bot h1 h2 h3 h4
      rw [bsearchFragF]
      by_cases hlt : top + 1 < bot
      · rw [if_pos hlt]
        have hmid1 : top < top + (bot - top) / 2 := by omega
        have hmid2 : top + (bot - top) / 2 < bot := by omega
        by_cases hc : pos < (fl.getD (top + (bot - top) / 2) default).start
        · rw [if_pos hc]
          have hkm : k < top + (bot - top) / 2 := by
            by_contra hx
            have := mono (top + (bot - top) / 2) k (by omega) (by omega)
            omega
          exact ih top (top + (bot - top) / 2) (by omega) h2 hkm (by omega)
        · rw [if_neg hc]
          have hmk : top + (bot - top) / 2 ≤ k := by
            by_contra hx
            have := mono (k + 1) (top + (bot - top) / 2) (by omega) (by omega)
            omega
          exact ih (top + (bot - top) / 2) bot (by omega) hmk h3 h4
      · rw [if_neg hlt]
        omega

theorem bsearchFrag_eq_of_bracket (fl : List Fragments) (pos k : Nat)
    (mono : ∀ i j, i ≤ j → j < fl.length →
      (fl.getD i default).start ≤ (fl.getD j default).start)
    (hk1 : (fl.getD k default).start ≤ pos)
    (hk2 : pos < (fl.getD (k + 1) default).start)
    (hk3 : k + 1 < fl.length) :
    ∀ top bot, top ≤ k → k < bot → bot < fl.length →
      bsearchFrag fl pos top bot = k := fun top bot h2 h3 h4 =>
  bsearchFragF_eq_of_bracket fl pos k mono hk1 hk2 hk3 (bot - top) top bot
    (Nat.le_refl _) h2 h3 h4


theorem list_getD_lt {α : Type} (l : List α) (d : α) (n : Nat) (h : n < l.length) :
    l.getD n d = l[n] := by
  simp [List.getElem?_eq_getElem h]

theorem list_getD_ge {α : Type} (l : List α) (d : α) (n : Nat) (h : l.length ≤ n) :
    l.getD n d = d := by
  simp [List.getElem?_eq_none h]

theorem buildJoined_ne_nil (szs : List RefRecord) : buildJoinedFragment szs ≠ [] :=
  buildFragsAux_ne_nil szs _ 0 0 (-1) 0

theorem buildJoined_chained (szs : List RefRecord) :
    ∀ i, i + 1 < (buildJoinedFragment szs).length →
      ((buildJoinedFragment szs).getD (i + 1) default).start =
        ((buildJoinedFragment szs).getD i default).start +
          ((buildJoinedFragment szs).getD i default).length :=
  fun i h => buildFragsAux_chained szs _ 0 0 (-1) 0 i h

theorem buildJoined_frag_id (szs : List RefRecord) :
    ∀ i, i + 1 < (buildJoinedFragment szs).length →
      ((buildJoinedFragment szs).getD i default).frag_id = i :=
  fun i h => by
    have hx : ((buildJoinedFragment szs).getD i default).frag_id = 0 + i :=
      buildFragsAux_frag_id szs (szs.getLastD default).off 0 0 (-1) 0 i h
    omega

theorem buildJoined_getD_last_len (szs : List RefRecord) :
    ((buildJoinedFragment szs).getD ((buildJoinedFragment szs).length - 1)
      default).length = 0 := by
  have hne := buildJoined_ne_nil szs
  have hpos : 0 < (buildJoinedFragment szs).length := List.length_pos.mpr hne
  have h := buildFragsAux_getLast_len szs (szs.getLastD default).off 0 0 (-1) 0 hne
  rw [List.getLast_eq_getElem] at h
  rw [list_getD_lt _ _ _ (by omega)]
  exact h

theorem contain_getD_lt_length (fl : List Fragments) (i pos : Nat)
    (h : (fl.getD i default).contain pos = true) : i < fl.length := by
  by_contra hx
  rw [list_getD_ge _ _ _ (by omega)] at h
  have h2 : (default : Fragments).start ≤ pos ∧
      pos < (default : Fragments).start + (default : Fragments).length := by
    simpa [Fragments.contain] using h
  have e1 : (default : Fragments).start = 0 := rfl
  have e2 : (default : Fragments).length = 0 := rfl
  omega

theorem locate_of_contain (szs : List RefRecord) (p i : Nat)
    (h : ((buildJoinedFragment szs).getD i default).contain p = true) :
    mapJoinedOffToSeq (buildJoinedFragment szs) p = (i : Int) := by
  have hne : buildJoinedFragment szs ≠ [] := buildJoined_ne_nil szs
  have hlen : 0 < (buildJoinedFragment szs).length := List.length_pos.mpr hne
  have hi : i < (buildJoinedFragment szs).length := contain_getD_lt_length _ _ _ h
  have hcont : ((buildJoinedFragment szs).getD i default).start ≤ p ∧
      p < ((buildJoinedFragment szs).getD i default).start +
        ((buildJoinedFragment szs).getD i default).length := by
    simpa [Fragments.contain] using h
  have hpos : 0 < ((buildJoinedFragment szs).getD i default).length := by omega
  have hlast : i + 1 < (buildJoinedFragment szs).length := by
    by_contra h1
    have hgl := buildJoined_getD_last_len szs
    have : i = (buildJoinedFragment szs).length - 1 := by omega
    rw [← this] at hgl
    omega
  have hmono := starts_mono (buildJoinedFragment szs) (buildJoined_chained szs)
  have hbr := bsearchFrag_eq_of_bracket (buildJoinedFragment szs) p i hmono hcont.1
    (by rw [buildJoined_chained szs i hlast]; omega) hlast
    0 ((buildJoinedFragment szs).length - 1)
    (by omega) (by omega) (by omega)
  rw [mapJoinedOffToSeq]
  simp only [hbr, h, if_pos]

theorem defaultFrag_contain_false (q : Nat) : (default : Fragments).contain q = false := by
  simp [Fragments.contain, default]

/-- C7: Fragment Map locate correctness: for every joined position strictly
inside some fragment's half-open interval `[start, start + length)` of the
built fragment list, `mapJoinedOffToSeq` returns that fragment's index, and
for every position covered by no fragment — a position in a gap or at/past
the zero-length terminator — it returns NotFound (-1). -/
theorem mapJoinedOffToSeq_locate_correct (szs : List RefRecord) (p q i : Nat)
    (hin : ((buildJoinedFragment szs).getD i default).contain p = true)
    (hout : ∀ j, ((buildJoinedFragment szs).getD j default).contain q = false) :
    mapJoinedOffToSeq (buildJoinedFragment szs) p = (i : Int) ∧
      mapJoinedOffToSeq (buildJoinedFragment szs) q = -1 := by
  refine ⟨locate_of_contain szs p i hin, ?_⟩
  rw [mapJoinedOffToSeq]
  simp only [hout, Bool.false_eq_true, if_false]

/-- Witness for the locate-correctness theorem on a concrete three-record
reference: position 9 lies inside the second fragment `[8, 12)`, position 18
is past the terminator. -/
theorem mapJoinedOffToSeq_locate_correct_witness :
    mapJoinedOffToSeq (buildJoinedFragment [⟨5, 8, true⟩, ⟨2, 4, false⟩, ⟨3, 6, true⟩]) 9
        = (1 : Int) ∧
      mapJoinedOffToSeq (buildJoinedFragment [⟨5, 8, true⟩, ⟨2, 4, false⟩, ⟨3, 6, true⟩]) 18
        = -1 :=
  mapJoinedOffToSeq_locate_correct [⟨5, 8, true⟩, ⟨2, 4, false⟩, ⟨3, 6, true⟩] 9 18 1
    (by decide)
    (fun j => by
      rcases Nat.lt_or_ge j 4 with hj | hj
      · interval_cases j <;> decide
      · rw [list_getD_ge _ _ _ (by
          have : (buildJoinedFragment
              [⟨5, 8, true⟩, ⟨2, 4, false⟩, ⟨3, 6, true⟩]).length = 4 := by decide
          omega)]
        exact defaultFrag_contain_false 18)

/-! ### Cache transparency -/

theorem findCached_some (cache : List Fragments) (pos fid : Nat)
    (h : findCached cache pos = some fid) :
    ∃ f, f ∈ cache ∧ f.contain pos = true ∧ f.frag_id = fid := by
  induction cache with
  | nil => simp [findCached] at h
  | cons f fs ih =>
      rw [findCached] at h
      by_cases hc : f.contain pos = true
      · rw [if_pos hc] at h
        exact ⟨f, List.mem_cons_self f fs, hc, Option.some.inj h⟩
      · rw [if_neg (by simpa using hc)] at h
        obtain ⟨g, hg1, hg2, hg3⟩ := ih h
        exact ⟨g, List.mem_cons_of_mem f hg1, hg2, hg3⟩

theorem mapCached_step (szs : List RefRecord) (cap : Nat) (st : FragCache) (pos : Nat)
    (hinv : CacheConsistent (buildJoinedFragment szs) st) :
    (mapJoinedOffToSeqCached cap (buildJoinedFragment szs) st pos).1 =
        mapJoinedOffToSeq (buildJoinedFragment szs) pos ∧
      CacheConsistent (buildJoinedFragment szs)
        (mapJoinedOffToSeqCached cap (buildJoinedFragment szs) st pos).2 := by
  rw [mapJoinedOffToSeqCached]
  cases hfc : findCached st.cached pos with
  | some fid =>
      obtain ⟨f, hf1, hf2, hf3⟩ := findCached_some st.cached pos fid hfc
      obtain ⟨k, hk1, hk2, hk3⟩ := hinv f hf1
      have : mapJoinedOffToSeq (buildJoinedFragment szs) pos = (k : Int) :=
        locate_of_contain szs pos k (by rw [hk2]; exact hf2)
      simp only [this]
      exact ⟨by rw [← hf3, hk3], hinv⟩
  | none =>
      rw [mapJoinedOffToSeq]
      by_cases hc : ((buildJoinedFragment szs).getD
          (bsearchFrag (buildJoinedFragment szs) pos 0
            ((buildJoinedFragment szs).length - 1)) default).contain pos = true
      · simp only [hc, if_true]
        refine ⟨by trivial, ?_⟩
        have htop := contain_getD_lt_length _ _ _ hc
        have hval := locate_of_contain szs pos _ hc
        rw [mapJoinedOffToSeq] at hval
        simp only [hc, if_true] at hval
        intro g hg
        have hid := buildJoined_frag_id szs
        rcases Nat.lt_or_ge
            (bsearchFrag (buildJoinedFragment szs) pos 0
              ((buildJoinedFragment szs).length - 1) + 1)
            (buildJoinedFragment szs).length with hreal | hterm
        · rw [cacheInsert] at hg
          by_cases hcap : st.cached.length < cap
          · rw [if_pos hcap] at hg
            simp only [] at hg
            rcases List.mem_append.mp hg with hg1 | hg1
            · exact hinv g hg1
            · have : g = (buildJoinedFragment szs).getD
                  (bsearchFrag (buildJoinedFragment szs) pos 0
                    ((buildJoinedFragment szs).length - 1)) default := by
                simpa using hg1
              subst this
              exact ⟨_, hreal, rfl, hid _ hreal⟩
          · rw [if_neg hcap] at hg
            simp only [] at hg
            rcases List.mem_or_eq_of_mem_set hg with hg1 | hg1
            · exact hinv g hg1
            · subst hg1
              exact ⟨_, hreal, rfl, hid _ hreal⟩
        · exfalso
          have hlp : 0 < (buildJoinedFragment szs).length :=
            List.length_pos.mpr (buildJoined_ne_nil szs)
          have heq : bsearchFrag (buildJoinedFragment szs) pos 0
              ((buildJoinedFragment szs).length - 1) =
              (buildJoinedFragment szs).length - 1 := by omega
          rw [heq] at hc
          have := buildJoined_getD_last_len szs
          have h2 : ((buildJoinedFragment szs).getD
              ((buildJoinedFragment szs).length - 1) default).start ≤ pos ∧
              pos < ((buildJoinedFragment szs).getD
                ((buildJoinedFragment szs).length - 1) default).start +
                ((buildJoinedFragment szs).getD
                  ((buildJoinedFragment szs).length - 1) default).length := by
            simpa [Fragments.contain] using hc
          omega
      · simp only [hc, Bool.false_eq_true, if_false]
        exact ⟨by trivial, hinv⟩

/-- C8: cache transparency: starting from a cold cache, any sequence of
locate queries through the cached `mapJoinedOffToSeq` returns exactly the
answers of the pure binary-search path, for any positive cache capacity. -/
theorem runCachedQueries_transparent (szs : List RefRecord) (cap : Nat)
    (queries : List Nat) (hcap : 0 < cap) :
    runCachedQueries cap (buildJoinedFragment szs) ⟨[], 0⟩ queries =
      queries.map (mapJoinedOffToSeq (buildJoinedFragment szs)) := by
  have main : ∀ (qs : List Nat) (st : FragCache),
      CacheConsistent (buildJoinedFragment szs) st →
      runCachedQueries cap (buildJoinedFragment szs) st qs =
        qs.map (mapJoinedOffToSeq (buildJoinedFragment szs)) := by
    intro qs
    induction qs with
    | nil => intro st _; rfl
    | cons q rest ih =>
        intro st hinv
        obtain ⟨h1, h2⟩ := mapCached_step szs cap st q hinv
        rw [runCachedQueries, List.map_cons, h1, ih _ h2]
  exact main queries ⟨[], 0⟩ (by intro f hf; simp at hf)

/-- Witness for cache transparency: a concrete query run, with repeats to
exercise cache hits, over a three-record reference with capacity 8. -/
theorem runCachedQueries_transparent_witness :
    runCachedQueries 8 (buildJoinedFragment [⟨5, 8, true⟩, ⟨2, 4, false⟩, ⟨3, 6, true⟩])
        ⟨[], 0⟩ [9, 9, 0, 13, 18, 9] =
      [9, 9, 0, 13, 18, 9].map
        (mapJoinedOffToSeq (buildJoinedFragment [⟨5, 8, true⟩, ⟨2, 4, false⟩, ⟨3, 6, true⟩])) :=
  runCachedQueries_transparent [⟨5, 8, true⟩, ⟨2, 4, false⟩, ⟨3, 6, true⟩] 8
    [9, 9, 0, 13, 18, 9] (by decide)

/-! ### LCP boundary clipping -/

theorem lcpScanF_le (s : Nat → Nat) (ae be : Nat) :
    ∀ fuel a b, lcpScanF s ae be fuel a b ≤ ae - a ∧
      lcpScanF s ae be fuel a b ≤ be - b := by
  intro fuel
  induction fuel with
  | zero => intro a b; rw [lcpScanF]; omega
  | succ m ih =>
      intro a b
      rw [lcpScanF]
      by_cases hc : a < ae ∧ b < be ∧ s a = s b
      · rw [if_pos hc]
        have := ih (a + 1) (b + 1)
        omega
      · rw [if_neg hc]; omega

theorem lcpScan_le (s : Nat → Nat) (ae be a b : Nat) :
    lcpScan s ae be a b ≤ ae - a ∧ lcpScan s ae be a b ≤ be - b :=
  lcpScanF_le s ae be (ae - a) a b

/-- C1: LCP boundary clipping: for in-range offsets whose fragment lookups
succeed, `getLCP` never exceeds the distance from either offset to the end
of its own fragment — in forward mode the bound is
`fragment.start + fragment.length` of the containing fragment, in
reverse-complement mode the offsets are mirrored (`sLen - pos - 1`) before
the lookup and the bound is `sLen - fragment.start`, the fragment end in
mirrored space.  So the returned common run never crosses a fragment
boundary on either side. -/
theorem getLCP_boundary_clip (fl : List Fragments) (s : Nat → Nat) (sLen : Nat)
    (a b ia ib : Nat) (ha : a < sLen) (hb : b < sLen) :
    (mapJoinedOffToSeq fl a = (ia : Int) → mapJoinedOffToSeq fl b = (ib : Int) →
      getLCP fl s sLen true a b ≤
          (fl.getD ia default).start + (fl.getD ia default).length - a ∧
        getLCP fl s sLen true a b ≤
          (fl.getD ib default).start + (fl.getD ib default).length - b) ∧
      (mapJoinedOffToSeq fl (sLen - a - 1) = (ia : Int) →
        mapJoinedOffToSeq fl (sLen - b - 1) = (ib : Int) →
        getLCP fl s sLen false a b ≤ sLen - (fl.getD ia default).start - a ∧
          getLCP fl s sLen false a b ≤ sLen - (fl.getD ib default).start - b) := by
  constructor
  · intro hia hib
    rw [getLCP, if_neg (by omega), if_pos rfl, hia, hib]
    rw [if_neg (by omega)]
    simpa using lcpScan_le s _ _ a b
  · intro hia hib
    rw [getLCP, if_neg (by omega)]
    simp only [Bool.false_eq_true, if_false]
    rw [hia, hib, if_neg (by omega)]
    simpa using lcpScan_le s _ _ a b

/-- Witness for LCP boundary clipping on a single-fragment reference of
length 18 (both strand modes, offsets 0 and 6, fragment index 0). -/
theorem getLCP_boundary_clip_witness :
    (getLCP (buildJoinedFragment [⟨0, 18, true⟩])
          (fun i => [0, 0, 0, 0, 0, 1, 0, 0, 0, 0, 0, 2, 0, 0, 0, 0, 0, 3].getD i 0)
          18 true 0 6 ≤
        ((buildJoinedFragment [⟨0, 18, true⟩]).getD 0 default).start +
          ((buildJoinedFragment [⟨0, 18, true⟩]).getD 0 default).length - 0 ∧
      getLCP (buildJoinedFragment [⟨0, 18, true⟩])
          (fun i => [0, 0, 0, 0, 0, 1, 0, 0, 0, 0, 0, 2, 0, 0, 0, 0, 0, 3].getD i 0)
          18 true 0 6 ≤
        ((buildJoinedFragment [⟨0, 18, true⟩]).getD 0 default).start +
          ((buildJoinedFragment [⟨0, 18, true⟩]).getD 0 default).length - 6) ∧
      (getLCP (buildJoinedFragment [⟨0, 18, true⟩])
          (fun i => [0, 0, 0, 0, 0, 1, 0, 0, 0, 0, 0, 2, 0, 0, 0, 0, 0, 3].getD i 0)
          18 false 0 6 ≤
        18 - ((buildJoinedFragment [⟨0, 18, true⟩]).getD 0 default).start - 0 ∧
      getLCP (buildJoinedFragment [⟨0, 18, true⟩])
          (fun i => [0, 0, 0, 0, 0, 1, 0, 0, 0, 0, 0, 2, 0, 0, 0, 0, 0, 3].getD i 0)
          18 false 0 6 ≤
        18 - ((buildJoinedFragment [⟨0, 18, true⟩]).getD 0 default).start - 6) := by
  have h := getLCP_boundary_clip (buildJoinedFragment [⟨0, 18, true⟩])
    (fun i => [0, 0, 0, 0, 0, 1, 0, 0, 0, 0, 0, 2, 0, 0, 0, 0, 0, 3].getD i 0)
    18 0 6 0 0 (by decide) (by decide)
  exact ⟨h.1 (by decide) (by decide), h.2 (by decide) (by decide)⟩

/-! ### Repeat scanner -/

theorem getStringGo_length (s : Nat → Nat) (refLen st len : Nat) :
    ∀ fuel i, len - i ≤ fuel →
      (getStringGo s refLen st len fuel i).length = min (len - i) (refLen - (st + i)) := by
  intro fuel
  induction fuel with
  | zero =>
      intro i h
      rw [getStringGo]
      by_cases hc : i < len ∧ st + i < refLen
      · omega
      · simp only [List.length_nil]; omega
  | succ m ih =>
      intro i h
      rw [getStringGo]
      by_cases hc : i < len ∧ st + i < refLen
      · rw [if_pos hc]
        simp only [List.length_cons]
        rw [ih (i + 1) (by omega)]
        omega
      · rw [if_neg hc]
        simp only [List.length_nil]; omega

theorem getString_length (s : Nat → Nat) (refLen st len : Nat) :
    (getString s refLen st len).length = min len (refLen - st) := by
  rw [getString, getStringGo_length s refLen st len len 0 (by omega)]
  omega

theorem scanStep_extend (fl : List Fragments) (s : Nat → Nat) (sLen : Nat)
    (fw : Bool) (rptLen rptCnt : Nat) (st : ScanState) (saElt : Nat)
    (hne : st.rpt_positions ≠ [])
    (hk : rptLen ≤ getLCP fl s sLen fw (st.rpt_positions.getLastD default).joinedOff saElt) :
    scanStep fl s sLen fw rptLen rptCnt st saElt =
      { st with
        rpt_positions := st.rpt_positions ++ [{ joinedOff := saElt, fw := fw }],
        min_lcp_len := min st.min_lcp_len
          (getLCP fl s sLen fw (st.rpt_positions.getLastD default).joinedOff saElt) } := by
  rw [scanStep]
  rw [if_neg (by simpa [List.isEmpty_iff] using hne)]
  rw [if_pos hk]
  have : (if getLCP fl s sLen fw (st.rpt_positions.getLastD default).joinedOff saElt <
      st.min_lcp_len then
        getLCP fl s sLen fw (st.rpt_positions.getLastD default).joinedOff saElt
      else st.min_lcp_len) =
      min st.min_lcp_len
        (getLCP fl s sLen fw (st.rpt_positions.getLastD default).joinedOff saElt) := by
    rcases Nat.lt_or_ge (getLCP fl s sLen fw
        (st.rpt_positions.getLastD default).joinedOff saElt) st.min_lcp_len with h | h
    · rw [if_pos h]; omega
    · rw [if_neg (by omega)]; omega
  rw [this]

theorem scanStep_flush (fl : List Fragments) (s : Nat → Nat) (sLen : Nat)
    (fw : Bool) (rptLen rptCnt : Nat) (st : ScanState) (saElt : Nat)
    (hne : st.rpt_positions ≠ [])
    (hk : getLCP fl s sLen fw (st.rpt_positions.getLastD default).joinedOff saElt < rptLen) :
    scanStep fl s sLen fw rptLen rptCnt st saElt =
      { rpt_positions := [{ joinedOff := saElt, fw := fw }],
        min_lcp_len := sLen,
        rpt_grp := st.rpt_grp ++
          (if rptCnt ≤ st.rpt_positions.length then
            [{ seq := getString s sLen (st.rpt_positions.getLastD default).joinedOff
                  st.min_lcp_len,
               positions := sortCoords st.rpt_positions }]
          else []) } := by
  rw [scanStep]
  rw [if_neg (by simpa [List.isEmpty_iff] using hne)]
  rw [if_neg (by omega)]
  by_cases hc : rptCnt ≤ st.rpt_positions.length
  · rw [if_pos hc, if_pos hc]
  · rw [if_neg hc, if_neg hc, List.append_nil]

/-- C5: Scanner threshold behavior: while consuming the stream, a suffix
whose LCP `k` with the previous one reaches `rpt_len` is appended to the
open cluster with `min_lcp` becoming `min min_lcp k`; a suffix with
`k < rpt_len` flushes the cluster, emitting a group exactly when the
cluster size reaches `rpt_cnt`, with positions sorted by joined offset and
representative read at a member suffix for `min_lcp` bytes; concretely,
with `rpt_len = 4` and `rpt_cnt = 3`, three adjacent suffixes sharing a
5-byte run followed by a breaking suffix yield exactly one group with a
5-byte representative and 3 positions, and two adjacent suffixes sharing
only 3 bytes yield no group. -/
theorem scanner_threshold_behavior :
    (∀ (fl : List Fragments) (s : Nat → Nat) (sLen : Nat) (fw : Bool)
        (rptLen rptCnt : Nat) (st : ScanState) (saElt : Nat),
      st.rpt_positions ≠ [] →
      rptLen ≤ getLCP fl s sLen fw (st.rpt_positions.getLastD default).joinedOff saElt →
      scanStep fl s sLen fw rptLen rptCnt st saElt =
        { st with
          rpt_positions := st.rpt_positions ++ [{ joinedOff := saElt, fw := fw }],
          min_lcp_len := min st.min_lcp_len
            (getLCP fl s sLen fw (st.rpt_positions.getLastD default).joinedOff saElt) }) ∧
    (∀ (fl : List Fragments) (s : Nat → Nat) (sLen : Nat) (fw : Bool)
        (rptLen rptCnt : Nat) (st : ScanState) (saElt : Nat),
      st.rpt_positions ≠ [] →
      getLCP fl s sLen fw (st.rpt_positions.getLastD default).joinedOff saElt < rptLen →
      scanStep fl s sLen fw rptLen rptCnt st saElt =
        { rpt_positions := [{ joinedOff := saElt, fw := fw }],
          min_lcp_len := sLen,
          rpt_grp := st.rpt_grp ++
            (if rptCnt ≤ st.rpt_positions.length then
              [{ seq := getString s sLen (st.rpt_positions.getLastD default).joinedOff
                    st.min_lcp_len,
                 positions := sortCoords st.rpt_positions }]
            else []) }) ∧
    nrgScan (buildJoinedFragment [⟨0, 18, true⟩])
        (fun i => [0, 0, 0, 0, 0, 1, 0, 0, 0, 0, 0, 2, 0, 0, 0, 0, 0, 3].getD i 0)
        18 true 4 3 [0, 6, 12, 5] =
      [{ seq := ['A', 'A', 'A', 'A', 'A'],
         positions := [{ joinedOff := 0, fw := true }, { joinedOff := 6, fw := true },
           { joinedOff := 12, fw := true }] }] ∧
    nrgScan (buildJoinedFragment [⟨0, 18, true⟩])
        (fun i => [0, 0, 0, 0, 0, 1, 0, 0, 0, 0, 0, 2, 0, 0, 0, 0, 0, 3].getD i 0)
        18 true 4 3 [2, 8] = [] := by
  refine ⟨?_, ?_, by decide, by decide⟩
  · intro fl s sLen fw rptLen rptCnt st saElt hne hk
    exact scanStep_extend fl s sLen fw rptLen rptCnt st saElt hne hk
  · intro fl s sLen fw rptLen rptCnt st saElt hne hk
    exact scanStep_flush fl s sLen fw rptLen rptCnt st saElt hne hk

/-- Witness for the scanner threshold theorem: its extend clause applied at
a concrete open cluster. -/
theorem scanner_threshold_behavior_witness :
    scanStep (buildJoinedFragment [⟨0, 18, true⟩])
        (fun i => [0, 0, 0, 0, 0, 1, 0, 0, 0, 0, 0, 2, 0, 0, 0, 0, 0, 3].getD i 0)
        18 true 4 3
        { rpt_positions := [{ joinedOff := 0, fw := true }], min_lcp_len := 18,
          rpt_grp := [] } 6 =
      { rpt_positions := [{ joinedOff := 0, fw := true }, { joinedOff := 6, fw := true }],
        min_lcp_len := min 18
          (getLCP (buildJoinedFragment [⟨0, 18, true⟩])
            (fun i => [0, 0, 0, 0, 0, 1, 0, 0, 0, 0, 0, 2, 0, 0, 0, 0, 0, 3].getD i 0)
            18 true 0 6),
        rpt_grp := [] } :=
  scanner_threshold_behavior.1 (buildJoinedFragment [⟨0, 18, true⟩])
    (fun i => [0, 0, 0, 0, 0, 1, 0, 0, 0, 0, 0, 2, 0, 0, 0, 0, 0, 3].getD i 0)
    18 true 4 3
    { rpt_positions := [{ joinedOff := 0, fw := true }], min_lcp_len := 18, rpt_grp := [] }
    6 (by decide) (by decide)

theorem nrgScan_aux_no_break (fl : List Fragments) (s : Nat → Nat) (sLen : Nat)
    (fw : Bool) (rptLen rptCnt : Nat) :
    ∀ (xs : List Nat) (st : ScanState), st.rpt_positions ≠ [] →
      List.Chain' (fun a b => rptLen ≤ getLCP fl s sLen fw a b)
        ((st.rpt_positions.getLastD default).joinedOff :: xs) →
      (xs.foldl (scanStep fl s sLen fw rptLen rptCnt) st).rpt_grp = st.rpt_grp := by
  intro xs
  induction xs with
  | nil => intro st _ _; rfl
  | cons x rest ih =>
      intro st hne hch
      rw [List.chain'_cons] at hch
      rw [List.foldl_cons]
      rw [scanStep_extend fl s sLen fw rptLen rptCnt st x hne hch.1]
      have hlast : ((st.rpt_positions ++
          [({ joinedOff := x, fw := fw } : RepeatCoord)]).getLastD default).joinedOff = x := by
        simp
      have := ih { st with
          rpt_positions := st.rpt_positions ++ [{ joinedOff := x, fw := fw }],
          min_lcp_len := min st.min_lcp_len
            (getLCP fl s sLen fw (st.rpt_positions.getLastD default).joinedOff x) }
        (by simp) (by rw [hlast]; exact hch.2)
      exact this

theorem scanStep_last_pos (fl : List Fragments) (s : Nat → Nat) (sLen : Nat)
    (fw : Bool) (rptLen rptCnt : Nat) (st : ScanState) (x : Nat) :
    ((scanStep fl s sLen fw rptLen rptCnt st x).rpt_positions.getLastD default).joinedOff
        = x ∧
      (scanStep fl s sLen fw rptLen rptCnt st x).rpt_positions ≠ [] := by
  rw [scanStep]
  by_cases h1 : st.rpt_positions.isEmpty
  · rw [if_pos h1]; simp
  · rw [if_neg h1]
    by_cases h2 : rptLen ≤ getLCP fl s sLen fw
        (st.rpt_positions.getLastD default).joinedOff x
    · rw [if_pos h2]; simp
    · rw [if_neg h2]; simp

theorem nrgScan_foldl_last (fl : List Fragments) (s : Nat → Nat) (sLen : Nat)
    (fw : Bool) (rptLen rptCnt : Nat) :
    ∀ (sa : List Nat) (st : ScanState) (hne : sa ≠ []),
    (((sa.foldl (scanStep fl s sLen fw rptLen rptCnt) st).rpt_positions.getLastD
        default).joinedOff = sa.getLast hne ∧
      (sa.foldl (scanStep fl s sLen fw rptLen rptCnt) st).rpt_positions ≠ []) := by
  intro sa
  induction sa with
  | nil => intro st hne; exact absurd rfl hne
  | cons a rest ih =>
      intro st hne
      cases rest with
      | nil =>
          rw [List.foldl_cons, List.foldl_nil]
          exact scanStep_last_pos fl s sLen fw rptLen rptCnt st a
      | cons b rest2 =>
          rw [List.foldl_cons,
            List.getLast_cons (List.cons_ne_nil b rest2)]
          exact ih (scanStep fl s sLen fw rptLen rptCnt st a) (List.cons_ne_nil b rest2)

/-- C6: end-of-stream asymmetry: a cluster still open when the stream ends
is never emitted, whatever groups earlier breaks produced and however large
the open cluster is: appending to any nonempty stream `sa` a tail `xs` whose
suffixes chain onto the last suffix of `sa` with LCPs at or above `rpt_len`
(so that the trailing cluster stays open to the very end) leaves the emitted
group list exactly that of `sa` — a group is emitted only by a breaking
mismatch inside the stream. -/
theorem nrgScan_no_flush_at_end (fl : List Fragments) (s : Nat → Nat) (sLen : Nat)
    (fw : Bool) (rptLen rptCnt : Nat) (sa xs : List Nat) (hne : sa ≠ [])
    (hch : List.Chain' (fun a b => rptLen ≤ getLCP fl s sLen fw a b)
      (sa.getLast hne :: xs)) :
    nrgScan fl s sLen fw rptLen rptCnt (sa ++ xs) =
      nrgScan fl s sLen fw rptLen rptCnt sa := by
  rw [nrgScan, nrgScan, List.foldl_append]
  obtain ⟨hlast, hpos⟩ := nrgScan_foldl_last fl s sLen fw rptLen rptCnt sa
    { rpt_positions := [], min_lcp_len := sLen, rpt_grp := [] } hne
  exact nrgScan_aux_no_break fl s sLen fw rptLen rptCnt xs _ hpos (by rwa [hlast])

/-- Witness for the end-of-stream asymmetry: after the single suffix 0, the
suffixes 6 and 12 of the concrete reference chain on with 5-byte LCPs
(thresholds 4 and 3 are met by the open cluster) yet nothing is emitted:
the scan of [0, 6, 12] equals the scan of [0], which is empty. -/
theorem nrgScan_no_flush_at_end_witness :
    nrgScan (buildJoinedFragment [⟨0, 18, true⟩])
        (fun i => [0, 0, 0, 0, 0, 1, 0, 0, 0, 0, 0, 2, 0, 0, 0, 0, 0, 3].getD i 0)
        18 true 4 3 ([0] ++ [6, 12]) =
      nrgScan (buildJoinedFragment [⟨0, 18, true⟩])
        (fun i => [0, 0, 0, 0, 0, 1, 0, 0, 0, 0, 0, 2, 0, 0, 0, 0, 0, 3].getD i 0)
        18 true 4 3 [0] :=
  nrgScan_no_flush_at_end (buildJoinedFragment [⟨0, 18, true⟩])
    (fun i => [0, 0, 0, 0, 0, 1, 0, 0, 0, 0, 0, 2, 0, 0, 0, 0, 0, 3].getD i 0)
    18 true 4 3 [0] [6, 12] (by simp)
    (List.chain'_cons.mpr ⟨by decide,
      List.chain'_cons.mpr ⟨by decide, List.chain'_singleton _⟩⟩)

/-- C10: representative truncation and the singleton-cluster edge case: the
representative the scanner reads is truncated at the end of the joined
sequence, its length being `min len (sLen - start)`; and with
`rpt_cnt ≤ 1`, a breaking second suffix flushes the singleton cluster whose
`min_lcp` still holds its initialization value `sLen`, so the emitted
group's representative is the whole suffix from its sole position to the
end of the joined sequence, of length `sLen - p`. -/
theorem scanner_truncation_singleton :
    (∀ (s : Nat → Nat) (refLen st len : Nat),
      (getString s refLen st len).length = min len (refLen - st)) ∧
    (∀ (fl : List Fragments) (s : Nat → Nat) (sLen : Nat) (fw : Bool)
        (rptLen rptCnt p q : Nat),
      rptCnt ≤ 1 →
      getLCP fl s sLen fw p q < rptLen →
      nrgScan fl s sLen fw rptLen rptCnt [p, q] =
        [{ seq := getString s sLen p sLen, positions := [{ joinedOff := p, fw := fw }] }] ∧
      (getString s sLen p sLen).length = sLen - p) := by
  refine ⟨getString_length, ?_⟩
  intro fl s sLen fw rptLen rptCnt p q hcnt hk
  constructor
  · rw [nrgScan, List.foldl_cons, List.foldl_cons, List.foldl_nil]
    have h1 : scanStep fl s sLen fw rptLen rptCnt
        { rpt_positions := [], min_lcp_len := sLen, rpt_grp := [] } p =
        { rpt_positions := [{ joinedOff := p, fw := fw }], min_lcp_len := sLen,
          rpt_grp := [] } := by
      rw [scanStep, if_pos (by simp)]
    rw [h1]
    rw [scanStep_flush fl s sLen fw rptLen rptCnt _ q (by simp) (by simpa using hk)]
    simp only [List.length_cons, List.length_nil]
    rw [if_pos (by omega)]
    simp [sortCoords, List.insertionSort]
  · rw [getString_length]
    omega

/-- Witness for the truncation theorem: on the 18-byte reference, suffixes 12
and 5 share no prefix, so with `rpt_cnt = 1` the singleton cluster at 12 is
flushed with the whole 6-byte tail as representative. -/
theorem scanner_truncation_singleton_witness :
    nrgScan (buildJoinedFragment [⟨0, 18, true⟩])
        (fun i => [0, 0, 0, 0, 0, 1, 0, 0, 0, 0, 0, 2, 0, 0, 0, 0, 0, 3].getD i 0)
        18 true 4 1 [12, 5] =
      [{ seq := getString
            (fun i => [0, 0, 0, 0, 0, 1, 0, 0, 0, 0, 0, 2, 0, 0, 0, 0, 0, 3].getD i 0)
            18 12 18,
         positions := [{ joinedOff := 12, fw := true }] }] ∧
      (getString (fun i => [0, 0, 0, 0, 0, 1, 0, 0, 0, 0, 0, 2, 0, 0, 0, 0, 0, 3].getD i 0)
        18 12 18).length = 18 - 12 :=
  scanner_truncation_singleton.2 (buildJoinedFragment [⟨0, 18, true⟩])
    (fun i => [0, 0, 0, 0, 0, 1, 0, 0, 0, 0, 0, 2, 0, 0, 0, 0, 0, 3].getD i 0)
    18 true 4 1 12 5 (by decide) (by decide)

/-! ### Subsumption sweep -/

theorem proper_ne_empty (r : RepeatRange) (h : r.range.1 ≤ r.range.2) :
    r.range ≠ EMPTY_RANGE := by
  intro he
  rw [he] at h
  simp [EMPTY_RANGE] at h

theorem emptied_range (b : RepeatRange) : (emptied b).range = EMPTY_RANGE := rfl

theorem surviving_cons_empty (b : RepeatRange) (l : List RepeatRange)
    (hb : b.range = EMPTY_RANGE) :
    survivingRanges (b :: l) = survivingRanges l := by
  simp [survivingRanges, List.filter_cons, hb]

theorem surviving_cons_proper (b : RepeatRange) (l : List RepeatRange)
    (hb : b.range ≠ EMPTY_RANGE) :
    survivingRanges (b :: l) = b :: survivingRanges l := by
  simp [survivingRanges, List.filter_cons, hb]

theorem sweepAux_mem (s : RepeatRange) :
    ∀ (l : List RepeatRange) (a : RepeatRange),
      s ∈ survivingRanges (sweepAux a l) → s ∈ l := by
  intro l
  induction l with
  | nil => intro a h; simp [sweepAux, survivingRanges] at h
  | cons b bs ih =>
      intro a h
      rw [sweepAux] at h
      by_cases hc : checkRangeMergeable a.range b.range = true
      · rw [if_pos hc] at h
        rw [surviving_cons_empty _ _ (emptied_range b)] at h
        exact List.mem_cons_of_mem b (ih a h)
      · rw [if_neg hc] at h
        by_cases hb : b.range = EMPTY_RANGE
        · rw [surviving_cons_empty _ _ hb] at h
          exact List.mem_cons_of_mem b (ih b h)
        · rw [surviving_cons_proper _ _ hb] at h
          rcases List.mem_cons.mp h with h1 | h1
          · exact h1 ▸ List.mem_cons_self b bs
          · exact List.mem_cons_of_mem b (ih b h1)

theorem sweepAux_pivot_not_contained :
    ∀ (l : List RepeatRange) (a : RepeatRange),
      List.Sorted rangeLE (a :: l) →
      ∀ s ∈ survivingRanges (sweepAux a l),
        checkRangeMergeable a.range s.range = false := by
  intro l
  induction l with
  | nil => intro a _ s hs; simp [sweepAux, survivingRanges] at hs
  | cons b bs ih =>
      intro a hsort s hs
      have hsort' := hsort
      rw [List.sorted_cons] at hsort'
      rw [sweepAux] at hs
      by_cases hc : checkRangeMergeable a.range b.range = true
      · rw [if_pos hc] at hs
        rw [surviving_cons_empty _ _ (emptied_range b)] at hs
        refine ih a ?_ s hs
        rw [List.sorted_cons]
        rw [List.sorted_cons] at hsort'
        exact ⟨fun c hcm => hsort'.1 c (List.mem_cons_of_mem b hcm), hsort'.2.2⟩
      · rw [if_neg hc] at hs
        by_cases hb : b.range = EMPTY_RANGE
        · rw [surviving_cons_empty _ _ hb] at hs
          have hmem := sweepAux_mem s bs b hs
          have h1 := ih b hsort'.2 s hs
          have hab := hsort'.1 b (List.mem_cons_self b bs)
          have has := hsort'.1 s (List.mem_cons_of_mem b hmem)
          have hbs : rangeLE b s := (List.sorted_cons.mp hsort'.2).1 s hmem
          simp only [checkRangeMergeable, decide_eq_true_eq, decide_eq_false_iff_not] at hc h1 ⊢
          unfold rangeLE at hab has hbs
          omega
        · rw [surviving_cons_proper _ _ hb] at hs
          rcases List.mem_cons.mp hs with h1 | h1
          · subst h1
            simpa using hc
          · have hmem := sweepAux_mem s bs b h1
            have h2 := ih b hsort'.2 s h1
            have hab := hsort'.1 b (List.mem_cons_self b bs)
            have hbs : rangeLE b s := (List.sorted_cons.mp hsort'.2).1 s hmem
            simp only [checkRangeMergeable, decide_eq_true_eq,
              decide_eq_false_iff_not] at hc h2 ⊢
            unfold rangeLE at hab hbs
            omega

theorem mergeSweep_pairwise_aux :
    ∀ (l : List RepeatRange) (a : RepeatRange),
      List.Sorted rangeLE (a :: l) →
      (∀ r ∈ a :: l, r.range.1 ≤ r.range.2) →
      List.Pairwise noStrictSub (survivingRanges (a :: sweepAux a l)) := by
  intro l
  induction l with
  | nil =>
      intro a _ hp
      rw [sweepAux, surviving_cons_proper _ _
        (proper_ne_empty a (hp a (List.mem_cons_self a [])))]
      simp [survivingRanges]
  | cons b bs ih =>
      intro a hsort hp
      have hsc := List.sorted_cons.mp hsort
      rw [sweepAux]
      by_cases hc : checkRangeMergeable a.range b.range = true
      · rw [if_pos hc]
        have ha := proper_ne_empty a (hp a (List.mem_cons_self a _))
        rw [surviving_cons_proper _ _ ha, surviving_cons_empty _ _ (emptied_range b)]
        rw [← surviving_cons_proper _ _ ha]
        refine ih a ?_ ?_
        · rw [List.sorted_cons]
          refine ⟨fun c hcm => hsc.1 c (List.mem_cons_of_mem b hcm), ?_⟩
          exact (List.sorted_cons.mp hsc.2).2
        · intro r hr
          rcases List.mem_cons.mp hr with h1 | h1
          · exact h1 ▸ hp a (List.mem_cons_self a _)
          · exact hp r (List.mem_cons_of_mem a (List.mem_cons_of_mem b h1))
      · rw [if_neg hc]
        have ha := proper_ne_empty a (hp a (List.mem_cons_self a _))
        have hbp := proper_ne_empty b (hp b (List.mem_cons_of_mem a (List.mem_cons_self b _)))
        rw [surviving_cons_proper _ _ ha]
        have htail : List.Pairwise noStrictSub (survivingRanges (b :: sweepAux b bs)) := by
          refine ih b hsc.2 ?_
          intro r hr
          exact hp r (List.mem_cons_of_mem a hr)
        refine List.Pairwise.cons ?_ htail
        intro s hs
        rw [surviving_cons_proper _ _ hbp] at hs
        have hab : rangeLE a b := hsc.1 b (List.mem_cons_self b bs)
        rcases List.mem_cons.mp hs with h1 | h1
        · subst h1
          constructor
          · intro hss
            unfold rangeStrictSub at hss
            unfold rangeLE at hab
            omega
          · intro hss
            unfold rangeStrictSub at hss
            simp only [checkRangeMergeable, decide_eq_true_eq] at hc
            omega
        · have hmem := sweepAux_mem s bs b h1
          have hncont := sweepAux_pivot_not_contained bs b hsc.2 s h1
          have has : rangeLE a s := hsc.1 s (List.mem_cons_of_mem b hmem)
          have hbs : rangeLE b s := (List.sorted_cons.mp hsc.2).1 s hmem
          simp only [checkRangeMergeable, decide_eq_true_eq,
            decide_eq_false_iff_not] at hc hncont
          constructor
          · intro hss
            unfold rangeStrictSub at hss
            unfold rangeLE at has hab hbs
            omega
          · intro hss
            unfold rangeStrictSub at hss
            unfold rangeLE at has hab hbs
            omega

theorem mergeSweep_no_strict_subset_of_sorted (l : List RepeatRange)
    (hsort : List.Sorted rangeLE l)
    (hp : ∀ r ∈ l, r.range.1 ≤ r.range.2) :
    List.Pairwise noStrictSub (survivingRanges (mergeSweep l)) := by
  cases l with
  | nil => simp [mergeSweep, survivingRanges]
  | cons a rest =>
      rw [mergeSweep]
      exact mergeSweep_pairwise_aux rest a hsort hp

/-- C4: subsumption-sweep containment invariant: for any list of proper
ranges, after sorting with the `compareRepeatRangeByRange` order (end
descending, then start ascending) and running the subsumption sweep, no
surviving range's interval is a strict subset of another surviving range's
interval. -/
theorem mergeSweep_no_strict_subset (l : List RepeatRange)
    (hp : ∀ r ∈ l, r.range.1 ≤ r.range.2) :
    List.Pairwise noStrictSub
      (survivingRanges (mergeSweep (l.insertionSort rangeLE))) := by
  refine mergeSweep_no_strict_subset_of_sorted (l.insertionSort rangeLE)
    (List.sorted_insertionSort rangeLE l) ?_
  intro r hr
  exact hp r ((List.perm_insertionSort rangeLE l).mem_iff.mp hr)

/-- Witness for the sweep invariant: four proper ranges of two groups where
the wide range [0,10) swallows [2,8) and [5,8); after sorting and sweeping,
no surviving pair is in strict containment. -/
theorem mergeSweep_no_strict_subset_witness :
    List.Pairwise noStrictSub (survivingRanges (mergeSweep
      (([⟨(2, 8), 1, true⟩, ⟨(0, 10), 0, true⟩, ⟨(10, 12), 0, true⟩,
        ⟨(5, 8), 1, true⟩] : List RepeatRange).insertionSort rangeLE))) := by
  refine mergeSweep_no_strict_subset
    [⟨(2, 8), 1, true⟩, ⟨(0, 10), 0, true⟩, ⟨(10, 12), 0, true⟩, ⟨(5, 8), 1, true⟩] ?_
  intro r hr
  fin_cases hr <;> exact (by decide)

/-! ### Regroup (range merger, rebuild phase) -/

theorem dropWhile_id_gt (r : RepeatRange) (tail : List RepeatRange)
    (hs : List.Sorted rangeIdLE (r :: tail)) :
    ∀ x ∈ tail.dropWhile (fun y => y.rg_id == r.rg_id), r.rg_id < x.rg_id := by
  intro x hx
  cases hdw : tail.dropWhile (fun y => y.rg_id == r.rg_id) with
  | nil => rw [hdw] at hx; cases hx
  | cons c cs =>
      rw [hdw] at hx
      have hcne : (c.rg_id == r.rg_id) = false := by
        have hh := List.head?_dropWhile_not (fun y => y.rg_id == r.rg_id) tail
        rw [hdw] at hh
        simpa using hh
      have hsub : List.Sublist (c :: cs) tail := hdw ▸ List.dropWhile_sublist _
      have hsdw : List.Sorted rangeIdLE (c :: cs) :=
        List.Pairwise.sublist hsub (List.sorted_cons.mp hs).2
      have hrc : rangeIdLE r c :=
        (List.sorted_cons.mp hs).1 c (hsub.subset (List.mem_cons_self c cs))
      have hcr : c.rg_id ≠ r.rg_id := by simpa using hcne
      rcases List.mem_cons.mp hx with h1 | h1
      · subst h1
        unfold rangeIdLE at hrc
        omega
      · have hcx : rangeIdLE c x := (List.sorted_cons.mp hsdw).1 x h1
        unfold rangeIdLE at hrc hcx
        omega

theorem dedup_cons_run {v : Int} :
    ∀ (ids : List Int) (L : List Int), (∀ x ∈ ids, x = v) → v ∉ L →
      (v :: (ids ++ L)).dedup = v :: L.dedup := by
  intro ids
  induction ids with
  | nil =>
      intro L _ hv
      simpa using List.dedup_cons_of_not_mem hv
  | cons w ws ih =>
      intro L hall hv
      have hw : w = v := hall w (List.mem_cons_self w ws)
      subst hw
      have hmem : w ∈ (w :: ws) ++ L := List.mem_cons_self w _
      rw [List.cons_append, List.dedup_cons_of_mem (by simpa using hmem)]
      exact ih L (fun x hx => hall x (List.mem_cons_of_mem w hx)) hv

theorem filter_id_run (r : RepeatRange) (tail : List RepeatRange)
    (hs : List.Sorted rangeIdLE (r :: tail)) :
    (r :: tail).filter (fun k => k.rg_id = r.rg_id) =
      r :: tail.takeWhile (fun y => y.rg_id == r.rg_id) := by
  rw [List.filter_cons, if_pos (by simp)]
  congr 1
  have hsplit : tail = tail.takeWhile (fun y => y.rg_id == r.rg_id) ++
      tail.dropWhile (fun y => y.rg_id == r.rg_id) :=
    (List.takeWhile_append_dropWhile _ _).symm
  conv_lhs => rw [hsplit]
  rw [List.filter_append]
  have h1 : (tail.takeWhile (fun y => y.rg_id == r.rg_id)).filter
      (fun k => k.rg_id = r.rg_id) = tail.takeWhile (fun y => y.rg_id == r.rg_id) := by
    apply List.filter_eq_self.mpr
    intro x hx
    have := List.mem_takeWhile_imp hx
    simpa using this
  have h2 : (tail.dropWhile (fun y => y.rg_id == r.rg_id)).filter
      (fun k => k.rg_id = r.rg_id) = [] := by
    apply List.filter_eq_nil.mpr
    intro x hx
    have := dropWhile_id_gt r tail hs x hx
    simp only [decide_eq_true_eq]
    omega
  rw [h1, h2, List.append_nil]

theorem regroupLoopF_closed (grps : List RepeatGroup) :
    ∀ (fuel : Nat) (l : List RepeatRange), l.length ≤ fuel →
      List.Sorted rangeIdLE l →
      (∀ r ∈ l, r.rg_id ≤ INT_SENTINEL) →
      (∀ x, l.getLast? = some x → x.rg_id = INT_SENTINEL) →
      regroupLoopF grps fuel l =
        ((l.map fun r => r.rg_id).filter fun i => i ≠ INT_SENTINEL).dedup.map fun id =>
          { seq := (grps.getD id.toNat default).seq,
            positions := sortCoords ((l.filter fun k => k.rg_id = id).map fun k =>
              { joinedOff := k.range.1, fw := k.forward }) } := by
  intro fuel
  induction fuel with
  | zero =>
      intro l hlen _ _ _
      have : l = [] := List.length_eq_zero.mp (by omega)
      subst this
      simp [regroupLoopF]
  | succ m ih =>
      intro l hlen hsort hbound hlast
      match l with
      | [] => simp [regroupLoopF]
      | [r] =>
          have hr : r.rg_id = INT_SENTINEL := hlast r rfl
          rw [regroupLoopF]
          simp [hr]
      | r :: b :: rest =>
          by_cases hr : r.rg_id = INT_SENTINEL
          · rw [regroupLoopF, if_pos hr]
            have hall : ∀ i ∈ (r :: b :: rest).map (fun r => r.rg_id), i = INT_SENTINEL := by
              intro i hi
              rcases List.mem_map.mp hi with ⟨x, hx, hxe⟩
              rcases List.mem_cons.mp hx with h1 | h1
              · rw [← hxe, h1, hr]
              · have hle : rangeIdLE r x := (List.sorted_cons.mp hsort).1 x h1
                have hb := hbound x hx
                unfold rangeIdLE at hle
                omega
            rw [List.filter_eq_nil_iff.mpr (by
              intro i hi
              simpa using hall i hi)]
            simp
          · rw [regroupLoopF, if_neg hr]
            have hsplit : (b :: rest) =
                (b :: rest).takeWhile (fun y => y.rg_id == r.rg_id) ++
                (b :: rest).dropWhile (fun y => y.rg_id == r.rg_id) :=
              (List.takeWhile_append_dropWhile _ _).symm
            have htw : ∀ x ∈ (b :: rest).takeWhile (fun y => y.rg_id == r.rg_id),
                x.rg_id = r.rg_id := by
              intro x hx
              simpa using List.mem_takeWhile_imp hx
            have hdwgt : ∀ x ∈ (b :: rest).dropWhile (fun y => y.rg_id == r.rg_id),
                r.rg_id < x.rg_id := dropWhile_id_gt r (b :: rest) hsort
            have hsorted_tail : List.Sorted rangeIdLE (b :: rest) :=
              (List.sorted_cons.mp hsort).2
            have hdw_sub : List.Sublist
                ((b :: rest).dropWhile (fun y => y.rg_id == r.rg_id)) (b :: rest) :=
              List.dropWhile_sublist _
            -- ids of the whole list, filtered and dedupped
            have hids : (((r :: b :: rest).map fun x => x.rg_id).filter
                fun i => i ≠ INT_SENTINEL).dedup =
                r.rg_id :: ((((b :: rest).dropWhile (fun y => y.rg_id == r.rg_id)).map
                  fun x => x.rg_id).filter fun i => i ≠ INT_SENTINEL).dedup := by
              rw [List.map_cons]
              conv_lhs => rw [hsplit]
              rw [List.map_append, List.filter_cons]
              rw [if_pos (by simpa using hr)]
              rw [List.filter_append]
              have htwf : (((b :: rest).takeWhile (fun y => y.rg_id == r.rg_id)).map
                  fun x => x.rg_id).filter (fun i => i ≠ INT_SENTINEL) =
                  ((b :: rest).takeWhile (fun y => y.rg_id == r.rg_id)).map
                    fun x => x.rg_id := by
                apply List.filter_eq_self.mpr
                intro i hi
                rcases List.mem_map.mp hi with ⟨x, hx, hxe⟩
                have := htw x hx
                simp only [decide_eq_true_eq]
                rw [← hxe, this]
                exact hr
              rw [htwf]
              apply dedup_cons_run
              · intro i hi
                rcases List.mem_map.mp hi with ⟨x, hx, hxe⟩
                rw [← hxe]
                exact htw x hx
              · intro hmem
                rcases List.mem_filter.mp hmem with ⟨hmem2, _⟩
                rcases List.mem_map.mp hmem2 with ⟨x, hx, hxe⟩
                have := hdwgt x hx
                omega
            rw [hids, List.map_cons]
            dsimp only
            congr 1
            · -- the head group
              rw [filter_id_run r (b :: rest) hsort]
            · -- the tail groups come from the suffix after the run
              have hlen' : ((b :: rest).dropWhile
                  (fun y => y.rg_id == r.rg_id)).length ≤ m := by
                have := hdw_sub.length_le
                simp only [List.length_cons] at hlen this ⊢
                omega
              have hsorted_dw : List.Sorted rangeIdLE
                  ((b :: rest).dropWhile (fun y => y.rg_id == r.rg_id)) :=
                List.Pairwise.sublist hdw_sub hsorted_tail
              have hbound_dw : ∀ x ∈ (b :: rest).dropWhile (fun y => y.rg_id == r.rg_id),
                  x.rg_id ≤ INT_SENTINEL := by
                intro x hx
                exact hbound x (List.mem_cons_of_mem r (hdw_sub.subset hx))
              have hlast_dw : ∀ x, ((b :: rest).dropWhile
                  (fun y => y.rg_id == r.rg_id)).getLast? = some x →
                  x.rg_id = INT_SENTINEL := by
                intro x hx
                apply hlast x
                have hfull : (r :: b :: rest) = (r :: (b :: rest).takeWhile
                    (fun y => y.rg_id == r.rg_id)) ++
                    (b :: rest).dropWhile (fun y => y.rg_id == r.rg_id) := by
                  rw [List.cons_append, ← hsplit]
                rw [hfull, List.getLast?_append, hx]
                rfl
              rw [ih _ hlen' hsorted_dw hbound_dw hlast_dw]
              apply List.map_congr_left
              intro id hid
              have hgt : r.rg_id < id := by
                rcases List.mem_filter.mp (List.mem_dedup.mp hid) with ⟨hmem2, _⟩
                rcases List.mem_map.mp hmem2 with ⟨x, hx, hxe⟩
                rw [← hxe]
                exact hdwgt x hx
              congr 2
              -- filtering the whole list by this id equals filtering the suffix
              rw [List.filter_cons, if_neg (by simp only [decide_eq_true_eq]; omega)]
              conv_rhs => rw [hsplit]
              rw [List.filter_append]
              have htwn : ((b :: rest).takeWhile (fun y => y.rg_id == r.rg_id)).filter
                  (fun k => k.rg_id = id) = [] := by
                apply List.filter_eq_nil_iff.mpr
                intro x hx
                have := htw x hx
                simp only [decide_eq_true_eq]
                omega
              rw [htwn, List.nil_append]

/-- Counterexample for the regroup claim: two groups whose single
occurrences are disjoint, so the sweep removes nothing and both ranges
survive (group ids 0 and 1 both appear among the surviving sorted ranges),
yet the rebuilt group list contains only the group of id 0: the rebuild
loop runs while `i < size - 1` and never processes the run consisting of
the single last range, so the surviving group 1 vanishes. -/
theorem mergeRepeatGroup_drops_trailing_survivor :
    mergeRepeatGroup
        [{ seq := ['A', 'A', 'A', 'A', 'A'], positions := [{ joinedOff := 0, fw := true }] },
         { seq := ['C', 'C', 'C'], positions := [{ joinedOff := 10, fw := true }] }] =
      [{ seq := ['A', 'A', 'A', 'A', 'A'], positions := [{ joinedOff := 0, fw := true }] }] ∧
    survivingRanges ((mergeSweep ((flattenRanges
        [{ seq := ['A', 'A', 'A', 'A', 'A'], positions := [{ joinedOff := 0, fw := true }] },
         { seq := ['C', 'C', 'C'], positions := [{ joinedOff := 10, fw := true }] }]).insertionSort
        rangeLE)).insertionSort rangeIdLE) =
      [{ range := (0, 5), rg_id := 0, forward := true },
       { range := (10, 13), rg_id := 1, forward := true }] := by
  constructor
  · decide
  · decide

/-- C2 (amended): when the sorted range array ends in a removed range (in
particular whenever the sweep removed at least one range), the rebuild is
exact: one new RepeatGroup per distinct surviving group id, in id order,
carrying that id's representative sequence, its positions being exactly the
start offsets and strands of that id's surviving ranges sorted by joined
offset; the run holding only the final sorted range is the single dropped
case (see the counterexample). -/
theorem regroupLoop_rebuild_amended (grps : List RepeatGroup) (l : List RepeatRange)
    (hsort : List.Sorted rangeIdLE l)
    (hbound : ∀ r ∈ l, r.rg_id ≤ INT_SENTINEL)
    (hlast : ∀ x, l.getLast? = some x → x.rg_id = INT_SENTINEL) :
    regroupLoop grps l =
      ((l.map fun r => r.rg_id).filter fun i => i ≠ INT_SENTINEL).dedup.map fun id =>
        { seq := (grps.getD id.toNat default).seq,
          positions := sortCoords ((l.filter fun k => k.rg_id = id).map fun k =>
            { joinedOff := k.range.1, fw := k.forward }) } :=
  regroupLoopF_closed grps l.length l (Nat.le_refl _) hsort hbound hlast

/-- Witness for the amended regroup theorem: two surviving runs followed by
a removed range; both groups are rebuilt with their sorted positions. -/
theorem regroupLoop_rebuild_amended_witness :
    regroupLoop
        [{ seq := ['A', 'A', 'A', 'A', 'A'] }, { seq := ['C', 'C', 'C'] }]
        [{ range := (7, 12), rg_id := 0, forward := true },
         { range := (0, 5), rg_id := 0, forward := true },
         { range := (10, 13), rg_id := 1, forward := true },
         { range := (1, 0), rg_id := INT_SENTINEL, forward := true }] =
      ((([{ range := (7, 12), rg_id := 0, forward := true },
          { range := (0, 5), rg_id := 0, forward := true },
          { range := (10, 13), rg_id := 1, forward := true },
          { range := (1, 0), rg_id := INT_SENTINEL, forward := true }] :
            List RepeatRange).map
            fun r => r.rg_id).filter fun i => i ≠ INT_SENTINEL).dedup.map fun id =>
        { seq := (([{ seq := ['A', 'A', 'A', 'A', 'A'] },
            { seq := ['C', 'C', 'C'] }] : List RepeatGroup).getD id.toNat default).seq,
          positions := sortCoords ((([{ range := (7, 12), rg_id := 0, forward := true },
              { range := (0, 5), rg_id := 0, forward := true },
              { range := (10, 13), rg_id := 1, forward := true },
              { range := (1, 0), rg_id := INT_SENTINEL, forward := true }] :
                List RepeatRange).filter
                fun k => k.rg_id = id).map fun k =>
            { joinedOff := k.range.1, fw := k.forward }) } := by
  refine regroupLoop_rebuild_amended _ _ ?_ ?_ ?_
  · refine List.sorted_cons.mpr ⟨fun b hb => ?_, ?_⟩
    · fin_cases hb <;> exact (by decide)
    · refine List.sorted_cons.mpr ⟨fun b hb => ?_, ?_⟩
      · fin_cases hb <;> exact (by decide)
      · refine List.sorted_cons.mpr ⟨fun b hb => ?_, ?_⟩
        · fin_cases hb <;> exact (by decide)
        · simp
  · intro r hr
    fin_cases hr <;> exact (by decide)
  · intro x hx
    have h2 : x = { range := (1, 0), rg_id := INT_SENTINEL, forward := true } :=
      (Option.some.inj hx).symm
    rw [h2]

/-! ### Approximate grouper -/

theorem innerSweepMark_proj (e : Nat) (s1 : List Char) (gs : List RepeatGroup) :
    (innerSweepMark e s1 gs).map (fun g => (g.seq, g.positions)) =
      gs.map fun g => (g.seq, g.positions) := by
  rw [innerSweepMark, List.map_map]
  apply List.map_congr_left
  intro g _
  by_cases h : checkSequenceMergeable s1 g.seq e <;> simp [h, Function.comp]

theorem outerSweepF_proj (e : Nat) :
    ∀ (fuel : Nat) (gs : List RepeatGroup),
      (outerSweepF e fuel gs).map (fun g => (g.seq, g.positions)) =
        gs.map fun g => (g.seq, g.positions) := by
  intro fuel
  induction fuel with
  | zero => intro gs; rfl
  | succ m ih =>
      intro gs
      match gs with
      | [] => rfl
      | [g] => rfl
      | g :: t :: ts =>
          rw [outerSweepF]
          · by_cases h : g.emptyFlag
            · rw [if_pos h, List.map_cons, List.map_cons, ih (t :: ts)]
            · rw [if_neg h, List.map_cons, List.map_cons,
                ih (innerSweepMark e g.seq (t :: ts)), innerSweepMark_proj]
          · intro h
            cases h

/-- Counterexample for the tombstone-skipping claim: with edit budget 1 over
representatives AA, CC, AC, group 0 absorbs and tombstones group 2, and the
next outer pass of group 1 compares the already-tombstoned group 2 again and
absorbs it a second time: AC ends up in the alt_seq of both absorbers, so a
tombstoned group is neither skipped by the inner loop nor absorbed at most
once. -/
theorem groupRepeatGroup_double_absorption :
    outerSweep 1 [{ seq := ['A', 'A'] }, { seq := ['C', 'C'] }, { seq := ['A', 'C'] }] =
      [{ seq := ['A', 'A'], alt_seq := [['A', 'C']] },
       { seq := ['C', 'C'], alt_seq := [['A', 'C']] },
       { seq := ['A', 'C'], emptyFlag := true }] := by
  decide

/-- C3 (amended): the inner loop of the pairwise sweep does not test the
tombstone flag, so an absorbed group may be compared and absorbed again by a
later absorber (see the counterexample); what does hold is that absorptions
only toggle tombstone flags and append alternates: the sweep leaves the
`seq` and `positions` of every group, absorbers included, unchanged. -/
theorem outerSweep_preserves_seq_positions (e : Nat) (gs : List RepeatGroup) :
    (outerSweep e gs).map (fun g => (g.seq, g.positions)) =
      gs.map fun g => (g.seq, g.positions) :=
  outerSweepF_proj e gs.length gs

/-! ### Edit distance -/

theorem lev_nil_left : ∀ ys : List Char,
    levenshtein Levenshtein.defaultCost [] ys = ys.length := by
  intro ys
  induction ys with
  | nil => simp
  | cons y ys ih => simp [ih]; omega

theorem lev_nil_right : ∀ xs : List Char,
    levenshtein Levenshtein.defaultCost xs [] = xs.length := by
  intro xs
  induction xs with
  | nil => simp
  | cons x xs ih => simp [ih]; omega

set_option maxHeartbeats 800000 in
theorem lev_append_rec_fuel :
    ∀ (n : Nat) (xs ys : List Char) (x y : Char), xs.length + ys.length ≤ n →
      levenshtein Levenshtein.defaultCost (xs ++ [x]) (ys ++ [y]) =
        min (min (levenshtein Levenshtein.defaultCost xs (ys ++ [y]) + 1)
            (levenshtein Levenshtein.defaultCost (xs ++ [x]) ys + 1))
          (levenshtein Levenshtein.defaultCost xs ys + if x = y then 0 else 1) := by
  intro n
  induction n with
  | zero =>
      intro xs ys x y hn
      have hx : xs = [] := List.length_eq_zero.mp (by omega)
      have hy : ys = [] := List.length_eq_zero.mp (by omega)
      subst hx; subst hy
      simp only [List.nil_append, levenshtein_cons_cons, lev_nil_left, lev_nil_right,
        levenshtein_nil_nil, Levenshtein.defaultCost_delete, Levenshtein.defaultCost_insert,
        Levenshtein.defaultCost_substitute, List.length_cons, List.length_nil]
      by_cases hxy : x = y <;> simp [hxy] <;> omega
  | succ m ih =>
      intro xs ys x y hn
      match xs, ys with
      | [], [] =>
          simp only [List.nil_append, levenshtein_cons_cons, lev_nil_left, lev_nil_right,
            levenshtein_nil_nil, Levenshtein.defaultCost_delete,
            Levenshtein.defaultCost_insert, Levenshtein.defaultCost_substitute,
            List.length_cons, List.length_nil]
          by_cases hxy : x = y <;> simp [hxy] <;> omega
      | [], y' :: ys' =>
          have h1 := ih [] ys' x y (by
            simp only [List.length_cons, List.length_nil] at hn ⊢; omega)
          simp only [List.nil_append, List.cons_append, levenshtein_cons_cons,
            Levenshtein.defaultCost_delete, Levenshtein.defaultCost_insert,
            Levenshtein.defaultCost_substitute, lev_nil_left, lev_nil_right,
            List.length_append, List.length_cons, List.length_nil] at h1 ⊢
          rw [h1]
          generalize (if x = y' then (0 : Nat) else 1) = c1
          generalize (if x = y then (0 : Nat) else 1) = c2
          generalize levenshtein Levenshtein.defaultCost [x] ys' = B
          omega
      | x' :: xs', [] =>
          have h1 := ih xs' [] x y (by
            simp only [List.length_cons, List.length_nil] at hn ⊢; omega)
          simp only [List.nil_append, List.cons_append, levenshtein_cons_cons,
            Levenshtein.defaultCost_delete, Levenshtein.defaultCost_insert,
            Levenshtein.defaultCost_substitute, lev_nil_left, lev_nil_right,
            List.length_append, List.length_cons, List.length_nil] at h1 ⊢
          rw [h1]
          generalize (if x' = y then (0 : Nat) else 1) = c1
          generalize (if x = y then (0 : Nat) else 1) = c2
          generalize levenshtein Levenshtein.defaultCost xs' [x] = B
          omega
      | x' :: xs', y' :: ys' =>
          have h1 := ih xs' (y' :: ys') x y (by
            simp only [List.length_cons] at hn ⊢; omega)
          have h2 := ih (x' :: xs') ys' x y (by
            simp only [List.length_cons] at hn ⊢; omega)
          have h3 := ih xs' ys' x y (by
            simp only [List.length_cons] at hn ⊢; omega)
          simp only [List.cons_append, levenshtein_cons_cons,
            Levenshtein.defaultCost_delete, Levenshtein.defaultCost_insert,
            Levenshtein.defaultCost_substitute] at h1 h2 h3 ⊢
          rw [h1, h2, h3]
          generalize (if x' = y' then (0 : Nat) else 1) = p
          generalize (if x = y then (0 : Nat) else 1) = q
          generalize levenshtein Levenshtein.defaultCost xs' (y' :: (ys' ++ [y])) = A1
          generalize levenshtein Levenshtein.defaultCost (xs' ++ [x]) (y' :: ys') = A2
          generalize levenshtein Levenshtein.defaultCost xs' (y' :: ys') = A3
          generalize levenshtein Levenshtein.defaultCost (x' :: xs') (ys' ++ [y]) = A4
          generalize levenshtein Levenshtein.defaultCost (x' :: (xs' ++ [x])) ys' = A5
          generalize levenshtein Levenshtein.defaultCost (x' :: xs') ys' = A6
          generalize levenshtein Levenshtein.defaultCost xs' (ys' ++ [y]) = A7
          generalize levenshtein Levenshtein.defaultCost (xs' ++ [x]) ys' = A8
          generalize levenshtein Levenshtein.defaultCost xs' ys' = A9
          simp only [← min_add_add_left, ← min_add_add_right]
          refine le_antisymm ?_ ?_ <;>
            · simp only [le_min_iff, min_le_iff]
              omega

theorem lev_append_rec (xs ys : List Char) (x y : Char) :
    levenshtein Levenshtein.defaultCost (xs ++ [x]) (ys ++ [y]) =
      min (min (levenshtein Levenshtein.defaultCost xs (ys ++ [y]) + 1)
          (levenshtein Levenshtein.defaultCost (xs ++ [x]) ys + 1))
        (levenshtein Levenshtein.defaultCost xs ys + if x = y then 0 else 1) :=
  lev_append_rec_fuel (xs.length + ys.length) xs ys x y (Nat.le_refl _)

theorem levRowSpec_head (A : List Char) (ys Q : List Char) :
    levRowSpec A Q ys =
      levenshtein Levenshtein.defaultCost A Q :: (levRowSpec A Q ys).tail := by
  cases ys <;> rfl

theorem levRow_spec (A : List Char) (x : Char) :
    ∀ (ys Q : List Char),
      levRow x (levenshtein Levenshtein.defaultCost (A ++ [x]) Q) ys (levRowSpec A Q ys) =
        (levRowSpec (A ++ [x]) Q ys).tail := by
  intro ys
  induction ys with
  | nil => intro Q; rfl
  | cons y ys ih =>
      intro Q
      conv_lhs => rw [levRowSpec, levRowSpec_head A ys (Q ++ [y])]
      rw [levRow]
      have hv : min (min (levenshtein Levenshtein.defaultCost A (Q ++ [y]) + 1)
          (levenshtein Levenshtein.defaultCost (A ++ [x]) Q + 1))
          (levenshtein Levenshtein.defaultCost A Q + if x = y then 0 else 1) =
          levenshtein Levenshtein.defaultCost (A ++ [x]) (Q ++ [y]) :=
        (lev_append_rec A Q x y).symm
      rw [hv]
      rw [← levRowSpec_head A ys (Q ++ [y])]
      rw [ih (Q ++ [y])]
      rw [← levRowSpec_head (A ++ [x]) ys (Q ++ [y])]
      conv_rhs => rw [levRowSpec]
      rfl

theorem levLoop_spec (s2 : List Char) :
    ∀ (xs A : List Char),
      levLoop s2 xs A.length (levRowSpec A [] s2) = levRowSpec (A ++ xs) [] s2 := by
  intro xs
  induction xs with
  | nil => intro A; rw [levLoop]; simp
  | cons x xs ih =>
      intro A
      rw [levLoop]
      have hrow : (A.length + 1) :: levRow x (A.length + 1) s2 (levRowSpec A [] s2) =
          levRowSpec (A ++ [x]) [] s2 := by
        have hcur : A.length + 1 = levenshtein Levenshtein.defaultCost (A ++ [x]) [] := by
          rw [lev_nil_right, List.length_append]
          rfl
        rw [hcur, levRow_spec A x s2 [], ← levRowSpec_head (A ++ [x]) s2 []]
      rw [hrow]
      have hidx : A.length + 1 = (A ++ [x]).length := by simp
      rw [hidx, ih (A ++ [x])]
      rw [List.append_assoc]
      rfl

theorem levRowSpec_nil_row : ∀ (ys Q : List Char),
    levRowSpec [] Q ys = List.range' Q.length (ys.length + 1) := by
  intro ys
  induction ys with
  | nil => intro Q; rw [levRowSpec, lev_nil_left]; rfl
  | cons y ys ih =>
      intro Q
      rw [levRowSpec, ih (Q ++ [y]), lev_nil_left, List.length_append]
      rfl

theorem levRowSpec_getD_last (A : List Char) :
    ∀ (ys Q : List Char),
      (levRowSpec A Q ys).getD ys.length 0 =
        levenshtein Levenshtein.defaultCost A (Q ++ ys) := by
  intro ys
  induction ys with
  | nil => intro Q; rw [levRowSpec]; simp
  | cons y ys ih =>
      intro Q
      rw [levRowSpec]
      simp only [List.length_cons, List.getD_cons_succ]
      rw [ih (Q ++ [y]), List.append_assoc]
      rfl

/-- C9: the rolling two-row program `levenshtein_distance` computes the
classic unit-cost (insert/delete/substitute) edit distance — Mathlib
`levenshtein` at the unit cost structure — and `checkSequenceMergeable`
accepts exactly the pairs whose distance is within the budget; hence two
representatives at distance exactly `rpt_edit` merge and two at
`rpt_edit + 1` do not. -/
theorem levenshtein_distance_correct :
    (∀ s1 s2 : List Char,
      levenshtein_distance s1 s2 = levenshtein Levenshtein.defaultCost s1 s2) ∧
    (∀ (s1 s2 : List Char) (e : Nat),
      checkSequenceMergeable s1 s2 e = true ↔
        levenshtein Levenshtein.defaultCost s1 s2 ≤ e) ∧
    (∀ (s1 s2 : List Char) (e : Nat),
      levenshtein Levenshtein.defaultCost s1 s2 = e →
        checkSequenceMergeable s1 s2 e = true) ∧
    (∀ (s1 s2 : List Char) (e : Nat),
      levenshtein Levenshtein.defaultCost s1 s2 = e + 1 →
        checkSequenceMergeable s1 s2 e = false) := by
  have hmain : ∀ s1 s2 : List Char,
      levenshtein_distance s1 s2 = levenshtein Levenshtein.defaultCost s1 s2 := by
    intro s1 s2
    rw [levenshtein_distance]
    have h0 : List.range (s2.length + 1) = levRowSpec [] [] s2 := by
      rw [levRowSpec_nil_row s2 [], List.range_eq_range']
      rfl
    rw [h0]
    have h2 := levLoop_spec s2 s1 []
    simp only [List.nil_append, List.length_nil] at h2
    rw [h2, levRowSpec_getD_last s1 s2 []]
    rfl
  refine ⟨hmain, ?_, ?_, ?_⟩
  · intro s1 s2 e
    rw [checkSequenceMergeable, hmain]
    simp
  · intro s1 s2 e he
    rw [checkSequenceMergeable, hmain, he]
    simp
  · intro s1 s2 e he
    rw [checkSequenceMergeable, hmain, he]
    simp

/-- Witness for the edit-distance theorem at a concrete pair: the program
and the classic distance agree on ACG vs AGG. -/
theorem levenshtein_distance_correct_witness :
    levenshtein_distance ['A', 'C', 'G'] ['A', 'G', 'G'] =
      levenshtein Levenshtein.defaultCost ['A', 'C', 'G'] ['A', 'G', 'G'] :=
  levenshtein_distance_correct.1 ['A', 'C', 'G'] ['A', 'G', 'G']
